import Mathlib

/-!
# Verification of the marasa segmented-log store

A shallow embedding of the marasa repository (StateKeeper, MultiLog,
EventLogMulti) together with proofs and refutations of the frozen claims
about its specification.

Python dictionaries are modelled as association lists (`KV`): insertion
order is preserved, assignment overwrites the first occurrence of a key in
place, and fresh keys are appended — exactly the observable behaviour of
`dict.update` / `dict.__setitem__` for the dictionaries the code builds.
The filesystem is modelled as an association list from (partition, segment
index) to the list of lines in that segment file.
-/

namespace Marasa

/-- A JSON object / Python dict with string keys, as an insertion-ordered
association list. -/
abbrev KV (V : Type) := List (String × V)

/-- Python `d.get(k)` / `d[k]`: the value at the first occurrence of `k`. -/
def kvGet {V : Type} : KV V → String → Option V
  | [], _ => none
  | (k', v) :: rest, k => if k' = k then some v else kvGet rest k

/-- Python `m.update(u)` on a fresh copy of `m`: keys of `m` keep their
position and are overwritten when `u` also has them; keys of `u` absent
from `m` are appended in the order of `u`. -/
def dictUpdate {V : Type} (m u : KV V) : KV V :=
  m.map (fun p => match kvGet u p.1 with
    | some v => (p.1, v)
    | none => p)
  ++ u.filter (fun q => (kvGet m q.1).isNone)

@[simp] theorem kvGet_nil {V : Type} (k : String) : kvGet ([] : KV V) k = none := rfl

theorem kvGet_cons {V : Type} (k' : String) (v : V) (rest : KV V) (k : String) :
    kvGet ((k', v) :: rest) k = if k' = k then some v else kvGet rest k := rfl

@[simp] theorem kvGet_append {V : Type} (l₁ l₂ : KV V) (k : String) :
    kvGet (l₁ ++ l₂) k = (kvGet l₁ k).orElse (fun _ => kvGet l₂ k) := by
  induction l₁ with
  | nil => simp [kvGet]
  | cons p rest ih =>
    rw [List.cons_append, kvGet_cons]
    rcases p with ⟨k', v⟩
    by_cases h : k' = k
    · simp [kvGet_cons, h]
    · simp [kvGet_cons, h, ih]

theorem kvGet_map_overwrite {V : Type} (m u : KV V) (k : String) :
    kvGet (m.map (fun p => match kvGet u p.1 with
      | some v => (p.1, v)
      | none => p)) k
      = match kvGet m k with
        | some w => match kvGet u k with
          | some v => some v
          | none => some w
        | none => none := by
  induction m with
  | nil => simp [kvGet]
  | cons p rest ih =>
    rcases p with ⟨k', v'⟩
    by_cases h : k' = k
    · subst h
      cases hu : kvGet u k' <;> simp [kvGet_cons, hu, kvGet]
    · cases hu : kvGet u k' <;> simp [kvGet_cons, h, ih, hu]

theorem kvGet_filter_absent {V : Type} (m u : KV V) (k : String)
    (hm : kvGet m k = none) :
    kvGet (u.filter (fun q => (kvGet m q.1).isNone)) k = kvGet u k := by
  induction u with
  | nil => rfl
  | cons q rest ih =>
    rcases q with ⟨k', v'⟩
    by_cases h : k' = k
    · subst h
      simp [List.filter_cons, hm, kvGet_cons, ih]
    · by_cases habs : (kvGet m k').isNone
      · simp [List.filter_cons, habs, kvGet_cons, h, ih]
      · simp [List.filter_cons, habs, kvGet_cons, h, ih]

/-- The characteristic property of `dictUpdate`: lookups prefer the update. -/
theorem kvGet_dictUpdate {V : Type} (m u : KV V) (k : String) :
    kvGet (dictUpdate m u) k = (kvGet u k).orElse (fun _ => kvGet m k) := by
  unfold dictUpdate
  rw [kvGet_append, kvGet_map_overwrite]
  cases hm : kvGet m k with
  | some w =>
    cases hu : kvGet u k <;> simp [Option.orElse]
  | none =>
    rw [kvGet_filter_absent m u k hm]
    cases hu : kvGet u k <;> simp [Option.orElse]

/-- `{}` updated with `u` is just `u` (Python: `d = {}; d.update(u)`). -/
theorem dictUpdate_nil {V : Type} (u : KV V) : dictUpdate [] u = u := by
  unfold dictUpdate
  simp [kvGet]

/-- Generic association-list lookup (used for the cache and the directory
of segment files). -/
def alistGet {K A : Type} [DecidableEq K] : List (K × A) → K → Option A
  | [], _ => none
  | (k', a) :: rest, k => if k' = k then some a else alistGet rest k

/-- Python dict assignment `d[k] = a`: overwrite the first occurrence in
place, or append a fresh key. -/
def alistSet {K A : Type} [DecidableEq K] : List (K × A) → K → A → List (K × A)
  | [], k, a => [(k, a)]
  | (k', a') :: rest, k, a =>
    if k' = k then (k', a) :: rest else (k', a') :: alistSet rest k a

@[simp] theorem alistGet_nil {K A : Type} [DecidableEq K] (k : K) :
    alistGet ([] : List (K × A)) k = none := rfl

theorem alistGet_alistSet_self {K A : Type} [DecidableEq K]
    (l : List (K × A)) (k : K) (a : A) : alistGet (alistSet l k a) k = some a := by
  induction l with
  | nil => simp [alistSet, alistGet]
  | cons p rest ih =>
    rcases p with ⟨k', a'⟩
    by_cases h : k' = k
    · simp [alistSet, h, alistGet]
    · simp [alistSet, h, alistGet, ih]

theorem alistGet_alistSet_ne {K A : Type} [DecidableEq K]
    (l : List (K × A)) (k k₀ : K) (a : A) (hne : k₀ ≠ k) :
    alistGet (alistSet l k₀ a) k = alistGet l k := by
  induction l with
  | nil => simp [alistSet, alistGet, hne]
  | cons p rest ih =>
    rcases p with ⟨k', a'⟩
    by_cases h : k' = k₀
    · subst h
      simp [alistSet, alistGet, hne]
    · simp [alistSet, h, alistGet, ih]

/-! ## StateKeeper (src/marasa/statekeeper.py)

The engine state: segment size, sequence counter, the in-memory
current-state cache `_state : ns ↦ [lastseq, map]`, and the storage
directory `files : (ns, segment) ↦ lines`, each line being
`(seq, json-object)`.  Values are an arbitrary type `V` standing for
decoded JSON values. -/

/-- Python exceptions that the modelled code can raise. -/
inductive PyErr : Type
  | valueError
  | ioError
  | attributeError
  | keyError
  deriving DecidableEq, Repr

/-- Result of `StateKeeper.get`: a whole-namespace dict, a single value,
or the `NOTFOUND` sentinel. -/
inductive GetRes (V : Type) : Type
  | dict (m : KV V)
  | val (v : V)
  | notfound
  deriving DecidableEq, Repr

structure SK (V : Type) : Type where
  size : Nat
  seq : Nat
  state : List (String × Nat × KV V)
  files : List ((String × Nat) × List (Nat × KV V))
  deriving DecidableEq, Repr

namespace SK

variable {V : Type}

/-- `self._state.get(namespace, [0, {}])[1]`. -/
def stateMap (sk : SK V) (ns : String) : KV V :=
  match alistGet sk.state ns with
  | some p => p.2
  | none => []

/-- `StateKeeper._write(namespace, seqno, kvdict)`: if the target segment
file does not exist, create it with a snapshot line (a copy of the cached
map updated with `kvdict`); otherwise append a delta line (`{}` updated
with `kvdict`).  Then update the cache entry to `(seqno, old ⊕ kvdict)`. -/
def writeOne (sk : SK V) (ns : String) (seqno : Nat) (kv : KV V) : SK V :=
  let seg := seqno / sk.size
  let data := match alistGet sk.files (ns, seg) with
    | none => dictUpdate (sk.stateMap ns) kv
    | some _ => dictUpdate [] kv
  let lines := (alistGet sk.files (ns, seg)).getD []
  { sk with
    files := alistSet sk.files (ns, seg) (lines ++ [(seqno, data)]),
    state := alistSet sk.state ns (seqno, dictUpdate (sk.stateMap ns) kv) }

/-- `StateKeeper.write`. -/
def write (sk : SK V) (ns : String) (kv : KV V) : SK V × Nat :=
  let seq' := sk.seq + 1
  (writeOne { sk with seq := seq' } ns seq' kv, seq')

/-- `StateKeeper.multiwrite`: one counter increment, then one `_write`
per namespace of the argument dict (iterated in insertion order). -/
def multiwrite (sk : SK V) (op : List (String × KV V)) : SK V × Nat :=
  let seq' := sk.seq + 1
  (op.foldl (fun s p => writeOne s p.1 seq' p.2) { sk with seq := seq' }, seq')

/-- `StateKeeper.__init__` over an empty storage directory. -/
def init (V : Type) (size : Nat) : SK V := ⟨size, 0, [], []⟩

/-- A logical write: the dict passed to `multiwrite` (a single
`write ns kv` behaves as `multiwrite [(ns, kv)]`). -/
abbrev Op (V : Type) := List (String × KV V)

/-- Run a sequence of logical writes against a fresh store. -/
def run (V : Type) (size : Nat) (ops : List (Op V)) : SK V :=
  ops.foldl (fun sk op => (sk.multiwrite op).1) (init V size)

/-- `StateKeeper._segfiles(ns)`, keeping each file's segment index and
lines. -/
def segfilesOf (sk : SK V) (ns : String) : List (Nat × List (Nat × KV V)) :=
  sk.files.filterMap (fun f => if f.1.1 = ns then some (f.1.2, f.2) else none)

end SK

/-- The loop of `_segfile_for_seq`: return the file of segment `seg`
as soon as it is seen, skip files above `seg`, and otherwise keep the
file with the largest segment index (`biggest` starts as `(-1, None)`,
modelled by `none`). -/
def sfLoop {L : Type} (seg? : Option Nat) :
    List (Nat × L) → Option (Nat × L) → Option (Nat × L)
  | [], biggest => biggest
  | f :: rest, biggest =>
    match seg? with
    | some seg =>
      if f.1 = seg then some f
      else if f.1 > seg then sfLoop seg? rest biggest
      else if (match biggest with | none => true | some b => b.1 < f.1) then
        sfLoop seg? rest (some f)
      else sfLoop seg? rest biggest
    | none =>
      if (match biggest with | none => true | some b => b.1 < f.1) then
        sfLoop seg? rest (some f)
      else sfLoop seg? rest biggest

namespace SK

variable {V : Type}

/-- `StateKeeper._segfile_for_seq(namespace, seq)`. -/
def segfileForSeq (sk : SK V) (ns : String) (seq? : Option Nat) :
    Option (Nat × List (Nat × KV V)) :=
  sfLoop (seq?.map (· / sk.size)) (sk.segfilesOf ns) none

/-- `StateKeeper._read_ns`: fold the latest segment file of `ns`. -/
def readNsDisk (sk : SK V) (ns : String) : Nat × KV V :=
  match sk.segfileForSeq ns none with
  | none => (0, [])
  | some f => f.2.foldl (fun acc l => (l.1, dictUpdate acc.2 l.2)) (0, [])

/-- `StateKeeper.reload`: fold `_read_ns` over `self.namespaces()` — the
KEYS OF THE IN-MEMORY CACHE, not the filesystem — and return the maximum
sequence seen.  It assigns nothing. -/
def reloadVal (sk : SK V) : Nat :=
  sk.state.foldl (fun latest p => max latest (sk.readNsDisk p.1).1) 0

/-- `StateKeeper.__init__` over an existing storage directory: the cache
starts empty and `_seq` is whatever `reload()` returns. -/
def openDir (V : Type) (size : Nat)
    (files : List ((String × Nat) × List (Nat × KV V))) : SK V :=
  let sk0 : SK V := ⟨size, 0, [], files⟩
  { sk0 with seq := sk0.reloadVal }

/-- The tail of both read paths: return the whole dict when no key was
given, else the key's value or `NOTFOUND`. -/
def projKey (st : KV V) (key : Option String) : GetRes V :=
  match key with
  | none => .dict st
  | some k =>
    match kvGet st k with
    | some v => .val v
    | none => .notfound

/-- `StateKeeper._read_cur`, threading the engine state to record that the
call assigns none of the fields.  When the cache is empty it calls
`reload()` and raises `IOError` if the result disagrees with a non-zero
counter; then it reads the cache (`value = self._state.get(ns, [0, {}])[1]`
followed by the key projection). -/
def readCurS (sk : SK V) (ns : String) (key : Option String) :
    SK V × Except PyErr (GetRes V) :=
  if sk.state.isEmpty ∧ sk.seq ≠ 0 ∧ sk.reloadVal ≠ sk.seq then
    (sk, .error .ioError)
  else
    (sk, .ok (projKey (sk.stateMap ns) key))

/-- The record fold of `_read_history`: update state with every record of
sequence `≤ q`, stop at the first record beyond `q`. -/
def foldUpTo : List (Nat × KV V) → Nat → KV V → KV V
  | [], _, st => st
  | l :: rest, q, st => if l.1 ≤ q then foldUpTo rest q (dictUpdate st l.2) else st

/-- `StateKeeper._read_history`: short-circuit to `_read_cur` when
`seqno == self.seq`; otherwise open `_segfile_for_seq(ns, seqno)` — which
raises `AttributeError` when that returns `None` (`None.open()`) — and
fold records up to `seqno`. -/
def readHistoryS (sk : SK V) (ns : String) (key : Option String) (seqno : Nat) :
    SK V × Except PyErr (GetRes V) :=
  if seqno = sk.seq then readCurS sk ns key
  else
    match sk.segfileForSeq ns (some seqno) with
    | none => (sk, .error .attributeError)
    | some f => (sk, .ok (projKey (foldUpTo f.2 seqno []) key))

/-- `StateKeeper.get`: current read when `seqno` is omitted, `ValueError`
for `seqno < 1`, historical read otherwise. -/
def getS (sk : SK V) (ns : String) (key : Option String) (seqno : Option Nat) :
    SK V × Except PyErr (GetRes V) :=
  match seqno with
  | none => readCurS sk ns key
  | some q => if q < 1 then (sk, .error .valueError) else readHistoryS sk ns key q

/-- The value returned by `StateKeeper.get`. -/
def get (sk : SK V) (ns : String) (key : Option String) (seqno : Option Nat) :
    Except PyErr (GetRes V) :=
  (getS sk ns key seqno).2

/-- `StateKeeper.namespaces`: the keys of the in-memory cache. -/
def namespacesS (sk : SK V) : SK V × List String :=
  (sk, sk.state.map (·.1))

/-- `StateKeeper._namespaces`: the distinct file-name prefixes present in
the storage directory. -/
def rawNamespaces (sk : SK V) : List String :=
  (sk.files.map (fun f => f.1.1)).dedup

end SK

/-! ### The cross-namespace replay generator `StateKeeper.read`
(`replay_all`), modelled for the default arguments `namespaces=None`,
`key=None`.  Per segment it opens a reader for every existing segment
file, primes a head per reader, and repeatedly coalesces all heads
carrying the minimal sequence into one delta frame.  Empty segment files
(which a `StateKeeper` never produces) are skipped here, where the Python
would raise `StopIteration`; the one-pass coalescing below agrees with
the Python loop because sequences within one segment file are strictly
increasing. -/

/-- Readers primed on the existing, non-empty segment files of the given
namespaces at segment `seg`: `(ns, head, remaining lines)`. -/
def skHeadsAt {V : Type} (sk : SK V) (nss : List String) (seg : Nat) :
    List (String × (Nat × KV V) × List (Nat × KV V)) :=
  nss.filterMap (fun ns =>
    match alistGet sk.files (ns, seg) with
    | some (l :: rest) => some (ns, l, rest)
    | _ => none)

/-- Pop every head carrying `minseq`, collecting the delta frame and
advancing those readers. -/
def skAdvanceMin {V : Type} (minseq : Nat) :
    List (String × (Nat × KV V) × List (Nat × KV V)) →
    List (String × KV V) × List (String × (Nat × KV V) × List (Nat × KV V))
  | [] => ([], [])
  | e :: rest =>
    let r := skAdvanceMin minseq rest
    if e.2.1.1 = minseq then
      match e.2.2 with
      | [] => ((e.1, e.2.1.2) :: r.1, r.2)
      | l :: ls => ((e.1, e.2.1.2) :: r.1, (e.1, l, ls) :: r.2)
    else (r.1, e :: r.2)

/-- The `while cursors:` loop: yield one coalesced `(seq, delta)` frame
per minimal sequence until every reader is exhausted.  `fuel` bounds the
iterations; callers pass more fuel than there are lines, so it never runs
out. -/
def skMergeLoop {V : Type} :
    Nat → List (String × (Nat × KV V) × List (Nat × KV V)) →
    List (Nat × List (String × KV V))
  | 0, _ => []
  | _, [] => []
  | fuel + 1, e :: rest =>
    let cur := e :: rest
    let minseq := ((cur.map (fun x => x.2.1.1)).min?).getD 0
    let r := skAdvanceMin minseq cur
    (minseq, r.1) :: skMergeLoop fuel r.2

/-- `StateKeeper.read(start_seqno)` with default namespaces and key: the
outer loop runs `curseg` from `start_seqno // segment_size` WHILE
`curseg < self.seq // self.segment_size`. -/
def SK.readAll {V : Type} (sk : SK V) (start : Nat) :
    List (Nat × List (String × KV V)) :=
  let nss := sk.rawNamespaces
  (List.range' (start / sk.size) (sk.seq / sk.size - start / sk.size)).flatMap
    (fun seg =>
      let cur := skHeadsAt sk nss seg
      skMergeLoop (cur.foldl (fun n e => n + 1 + e.2.2.length) 0 + 1) cur)

/-! ## MultiLog (src/marasa/multilog.py)

Event records are opaque serialized data (`V`).  A line of a segment file
is `(seq, tag, datum)`; the tail cache `_cur` maps a tag to
`(seqno, datum)`, where the datum may also be the `NOTFOUND` sentinel
(modelled as `none`) because `reload` stores `_tail_tagseg` results. -/

structure ML (V : Type) : Type where
  size : Nat
  seq : Nat
  cur : List (String × Nat × Option V)
  files : List ((String × Nat) × List (Nat × String × V))
  deriving DecidableEq, Repr

namespace ML

variable {V : Type}

/-- `MultiLog._write`: append `(seqno, tag, data)` to the segment file of
`(tag, seqno // segment_size)`, creating it if missing, and set
`_cur[tag] = (seqno, data)`. -/
def writeOne (ml : ML V) (seqno : Nat) (tag : String) (data : V) : ML V :=
  let seg := seqno / ml.size
  let lines := (alistGet ml.files (tag, seg)).getD []
  { ml with
    files := alistSet ml.files (tag, seg) (lines ++ [(seqno, tag, data)]),
    cur := alistSet ml.cur tag (seqno, some data) }

/-- `MultiLog.put`. -/
def put (ml : ML V) (data : V) (tag : String) : ML V × Nat :=
  let seq' := ml.seq + 1
  (writeOne { ml with seq := seq' } seq' tag data, seq')

/-- A fresh `MultiLog` (empty directory) followed by a sequence of puts. -/
def runPuts (V : Type) (size : Nat) (ps : List (String × V)) : ML V :=
  ps.foldl (fun ml p => (ml.put p.2 p.1).1) ⟨size, 0, [], []⟩

/-- `MultiLog._tags`: the distinct file-name prefixes on disk. -/
def tags (ml : ML V) : List String :=
  (ml.files.map (fun f => f.1.1)).dedup

/-- `MultiLog._segfile_for_seqno(tag, seq)`: same selection loop as
StateKeeper, over the segment files of one tag. -/
def segfileForSeqno (ml : ML V) (tag : String) (seq? : Option Nat) :
    Option (Nat × List (Nat × String × V)) :=
  sfLoop (seq?.map (· / ml.size))
    (ml.files.filterMap (fun f => if f.1.1 = tag then some (f.1.2, f.2) else none))
    none

/-- `MultiLog._tail_tagseg`: last record of the latest segment file of a
tag, starting from `(0, NOTFOUND)`.  (On an empty segment file the Python
unpacking would raise; segment files are never empty.) -/
def tailTagseg (ml : ML V) (tag : String) : Nat × Option V :=
  match ml.segfileForSeqno tag none with
  | none => (0, none)
  | some f =>
    match f.2.getLast? with
    | some l => (l.1, some l.2.2)
    | none => (0, none)

/-- `MultiLog.reload`: build `latest` over `self._tags()`.  The loop body
reads `latest[t][0]` before ever inserting `t`, so it raises `KeyError`
for the first tag found on disk; only an empty directory survives, with
`_cur = {}` and `_seq = 0` (`max(...) if latest else 0`). -/
def reloadRes (ml : ML V) :
    Except PyErr (List (String × Nat × Option V) × Nat) := do
  let latest ← List.foldlM
    (fun (latest : List (String × Nat × Option V)) t => do
      let r := ml.tailTagseg t
      match alistGet latest t with
      | none => Except.error PyErr.keyError
      | some p =>
        if r.1 > p.1 then pure (alistSet latest t (r.1, r.2)) else pure latest)
    [] ml.tags
  let seq := if latest.isEmpty then 0 else (latest.map (fun p => p.2.1)).max?.getD 0
  pure (latest, seq)

/-- `MultiLog.__init__` over a storage directory: `_cur = {}`, `_seq = 0`,
then `reload()`. -/
def openDir (V : Type) (size : Nat)
    (files : List ((String × Nat) × List (Nat × String × V))) :
    Except PyErr (ML V) := do
  let ml0 : ML V := ⟨size, 0, [], files⟩
  let r ← ml0.reloadRes
  pure { ml0 with cur := r.1, seq := r.2 }

/-- Python `max(entries, key=e[0])`: the first entry with the maximal
first component. -/
def maxBySeq {A : Type} : List (Nat × A) → Option (Nat × A)
  | [] => none
  | e :: rest => some (rest.foldl (fun best x => if x.1 > best.1 then x else best) e)

/-- `MultiLog._get_cur`: reload if the cache is empty; `NOTFOUND` if it is
still empty; otherwise the datum of the most recent cached entry among
the given tags — looking each tag up with `self._cur[t]`, which raises
`KeyError` for a tag with no cached record, and `max` raises `ValueError`
when the tag list is empty. -/
def getCur (ml : ML V) (tags? : Option (List String)) : Except PyErr (Option V) := do
  let cur ← if ml.cur.isEmpty then (ml.reloadRes).map (fun r => r.1) else pure ml.cur
  if cur.isEmpty then
    pure none
  else
    match tags? with
    | none =>
      pure ((maxBySeq (cur.map (fun p => p.2))).bind (fun b => b.2))
    | some ts => do
      let vals ← List.foldlM
        (fun (acc : List (Nat × Option V)) t =>
          match alistGet cur t with
          | none => Except.error PyErr.keyError
          | some p => pure (acc ++ [p]))
        [] ts
      match maxBySeq vals with
      | none => Except.error PyErr.valueError
      | some b => pure b.2

end ML

/-- The record scan of `_get_history`: skip records below `seqno`, return
the datum at exactly `seqno`, stop at the first record beyond it. -/
def scanExact {V : Type} : List (Nat × String × V) → Nat → Option V
  | [], _ => none
  | l :: rest, q =>
    if l.1 < q then scanExact rest q
    else if l.1 = q then some l.2.2
    else none

namespace ML

variable {V : Type}

/-- `MultiLog._get_history`: scan each given tag's covering segment file
for a record with exactly the requested sequence. -/
def getHistory (ml : ML V) : List String → Nat → Option V
  | [], _ => none
  | t :: rest, seqno =>
    match ml.segfileForSeqno t (some seqno) with
    | none => ml.getHistory rest seqno
    | some f =>
      match scanExact f.2 seqno with
      | some d => some d
      | none => ml.getHistory rest seqno

/-- `MultiLog.get` (list or omitted tags; the regex-string form is not
modelled): resolve omitted tags to `self._tags()`, then dispatch on
`seqno`.  `none` in the result is the `NOTFOUND` sentinel. -/
def get (ml : ML V) (tags? : Option (List String)) (seqno? : Option Nat) :
    Except PyErr (Option V) :=
  let msgtags := match tags? with | none => ml.tags | some ts => ts
  match seqno? with
  | none => ml.getCur (some msgtags)
  | some q =>
    if q < 1 then Except.error PyErr.valueError
    else Except.ok (ml.getHistory msgtags q)

end ML

/-! ### The merged replay generator `MultiLog.read`.  Readers are primed
on the existing, non-empty segment files of the selected tags; each step
yields the head with the minimal sequence (the first one, as Python
`min`) and advances that reader.  The advanced reader is the one keyed by
the record's embedded tag, which equals the file's tag for every store
the engine writes. -/

/-- Pop the first head carrying `minseq`, advancing its reader. -/
def mlPopMin {V : Type} (minseq : Nat) :
    List (String × (Nat × String × V) × List (Nat × String × V)) →
    Option ((Nat × String × V) × List (String × (Nat × String × V) × List (Nat × String × V)))
  | [] => none
  | e :: rest =>
    if e.2.1.1 = minseq then
      match e.2.2 with
      | [] => some (e.2.1, rest)
      | l :: ls => some (e.2.1, (e.1, l, ls) :: rest)
    else
      match mlPopMin minseq rest with
      | none => none
      | some r => some (r.1, e :: r.2)

/-- The `while cursors:` loop of `MultiLog.read`. -/
def mlMergeLoop {V : Type} :
    Nat → List (String × (Nat × String × V) × List (Nat × String × V)) →
    List (Nat × String × V)
  | 0, _ => []
  | _, [] => []
  | fuel + 1, e :: rest =>
    let cur := e :: rest
    let minseq := ((cur.map (fun x => x.2.1.1)).min?).getD 0
    match mlPopMin minseq cur with
    | none => []
    | some r => r.1 :: mlMergeLoop fuel r.2

/-- Readers primed at segment `seg` for the selected tags. -/
def mlHeadsAt {V : Type} (ml : ML V) (ts : List String) (seg : Nat) :
    List (String × (Nat × String × V) × List (Nat × String × V)) :=
  ts.filterMap (fun t =>
    match alistGet ml.files (t, seg) with
    | some (l :: rest) => some (t, l, rest)
    | _ => none)

/-- `MultiLog.read(start_seqno, tags)`: the outer loop runs `curseg` from
`start_seqno // segment_size` WHILE `curseg < self.seq // segment_size`,
with no lower filtering of sequences against `start_seqno`. -/
def ML.read {V : Type} (ml : ML V) (start : Nat) (tags? : Option (List String)) :
    List (Nat × String × V) :=
  let msgtags := match tags? with | none => ml.tags | some ts => ts
  (List.range' (start / ml.size) (ml.seq / ml.size - start / ml.size)).flatMap
    (fun seg =>
      let cur := mlHeadsAt ml msgtags seg
      mlMergeLoop (cur.foldl (fun n e => n + 1 + e.2.2.length) 0 + 1) cur)

/-! ## EventLogMulti (src/marasa/eventlogmulti.py)

An older revision of the multi-tag event log.  Its `_segfiles` globs the
LITERAL pattern `"\x7bprefix\x7d.*"` (the Python source reads
`self.dir.glob('{prefix}.*')`, a plain string missing the `f` prefix), so
directory enumeration only ever sees files of a tag literally named
`"\x7bprefix\x7d"`.  Records are stored serialized; serialization is an
external collaborator, so `put`/`get` are modelled on the serialized
data. -/

structure ELM (V : Type) : Type where
  size : Nat
  seq : Nat
  cur : List (String × Nat × Option V)
  files : List ((String × Nat) × List (Nat × String × V))
  deriving DecidableEq, Repr

namespace ELM

variable {V : Type}

/-- `EventLogMulti._segfiles(typestr)`: the glob pattern is the literal
string, whatever `typestr` is. -/
def segfilesGlob (elm : ELM V) : List ((String × Nat) × List (Nat × String × V)) :=
  elm.files.filter (fun f => f.1.1 = "\x7bprefix\x7d")

/-- `EventLogMulti._types`. -/
def types (elm : ELM V) : List String :=
  (elm.segfilesGlob.map (fun f => f.1.1)).dedup

/-- `EventLogMulti._segfile_for_seqno`: the selection loop runs over the
broken glob, hence never finds anything. -/
def segfileForSeqno (elm : ELM V) (typestr : String) (seq? : Option Nat) :
    Option (Nat × List (Nat × String × V)) :=
  sfLoop (seq?.map (· / elm.size))
    ((elm.segfilesGlob).filterMap
      (fun f => if f.1.1 = typestr then some (f.1.2, f.2) else none))
    none

/-- `EventLogMulti._tail_typeseg`. -/
def tailTypeseg (elm : ELM V) (typestr : String) : Nat × Option V :=
  match elm.segfileForSeqno typestr none with
  | none => (0, none)
  | some f =>
    match f.2.getLast? with
    | some l => (l.1, some l.2.2)
    | none => (0, none)

/-- `EventLogMulti.reload`: same `latest[t][0]` KeyError pattern as
MultiLog, but the final `self._seq = max(latest[t][0] for t in latest)`
has no empty-case guard: on an empty `latest` — in particular on an empty
storage directory — `max()` raises `ValueError`. -/
def reloadRes (elm : ELM V) :
    Except PyErr (List (String × Nat × Option V) × Nat) := do
  let latest ← List.foldlM
    (fun (latest : List (String × Nat × Option V)) t => do
      let r := elm.tailTypeseg t
      match alistGet latest t with
      | none => Except.error PyErr.keyError
      | some p =>
        if r.1 > p.1 then pure (alistSet latest t (r.1, r.2)) else pure latest)
    [] elm.types
  match (latest.map (fun p => p.2.1)).max? with
  | none => Except.error PyErr.valueError
  | some m => pure (latest, m)

/-- `EventLogMulti.__init__`: `_cur = {}`, `_seq = 0`, then `reload()` —
which propagates `reload`'s exception out of the constructor. -/
def openDir (V : Type) (size : Nat)
    (files : List ((String × Nat) × List (Nat × String × V))) :
    Except PyErr (ELM V) := do
  let elm0 : ELM V := ⟨size, 0, [], files⟩
  let r ← elm0.reloadRes
  pure { elm0 with cur := r.1, seq := r.2 }

/-- `EventLogMulti._write` + `put`: tag is the event's type name,
supplied directly here. -/
def put (elm : ELM V) (typestr : String) (data : V) : ELM V × Nat :=
  let seq' := elm.seq + 1
  let seg := seq' / elm.size
  let lines := (alistGet elm.files (typestr, seg)).getD []
  ({ elm with
      seq := seq',
      files := alistSet elm.files (typestr, seg) (lines ++ [(seq', typestr, data)]),
      cur := alistSet elm.cur typestr (seq', some data) }, seq')

/-- The methods of `EventLogMulti` studied on the state reached by a
sequence of puts from an empty store (the real constructor raises, see
`reloadRes`; the method bodies are independent of that). -/
def runPuts (V : Type) (size : Nat) (ps : List (String × V)) : ELM V :=
  ps.foldl (fun elm p => (elm.put p.1 p.2).1) ⟨size, 0, [], []⟩

/-- `EventLogMulti._get_cur`: reload if the cache is empty (and propagate
its exception); `NOTFOUND` if still empty; otherwise the most recent
cached entry among the given types (`self._cur[t]` raising `KeyError`
when absent, `max` of an empty list raising `ValueError`). -/
def getCur (elm : ELM V) (msgtypes? : Option (List String)) :
    Except PyErr (Option V) := do
  let cur ← if elm.cur.isEmpty then (elm.reloadRes).map (fun r => r.1) else pure elm.cur
  if cur.isEmpty then
    pure none
  else
    match msgtypes? with
    | none => pure ((ML.maxBySeq (cur.map (fun p => p.2))).bind (fun b => b.2))
    | some ts => do
      let vals ← List.foldlM
        (fun (acc : List (Nat × Option V)) t =>
          match alistGet cur t with
          | none => Except.error PyErr.keyError
          | some p => pure (acc ++ [p]))
        [] ts
      match ML.maxBySeq vals with
      | none => Except.error PyErr.valueError
      | some b => pure b.2

/-- The history scan of `EventLogMulti._get_history`: over `self._types()`
(NOT the requested types — and empty anyway through the broken glob). -/
def historyScan (elm : ELM V) : List String → Nat → Option V
  | [], _ => none
  | t :: rest, seqno =>
    match elm.segfileForSeqno t (some seqno) with
    | none => elm.historyScan rest seqno
    | some f =>
      match scanExact f.2 seqno with
      | some d => some d
      | none => elm.historyScan rest seqno

/-- `EventLogMulti._get_history`: when `seqno == self.seq` it
short-circuits to `_get_cur(msgtypes)` — whatever sequence the returned
record actually carries; otherwise it scans `self._types()`. -/
def getHistory (elm : ELM V) (msgtypes? : Option (List String)) (seqno : Nat) :
    Except PyErr (Option V) :=
  if seqno = elm.seq then elm.getCur msgtypes?
  else Except.ok (elm.historyScan elm.types seqno)

/-- `EventLogMulti.get`: `msgtypes` is passed through unresolved. -/
def get (elm : ELM V) (msgtypes? : Option (List String)) (seqno? : Option Nat) :
    Except PyErr (Option V) :=
  match seqno? with
  | none => elm.getCur msgtypes?
  | some q =>
    if q < 1 then Except.error PyErr.valueError
    else elm.getHistory msgtypes? q

end ELM

/-! ## Reference semantics for StateKeeper

The history of logical writes is flattened to `(seq, ns, kvdict)` entries;
the logical write at position `i` (0-based) carries sequence `i + 1`.
`refState` is the right-biased merge of everything written to a partition
up to a sequence; `lastSet` is the value of the most recent write at or
below a sequence that set a given key. -/

namespace SK

variable {V : Type}

/-- Flatten logical writes into `(seq, ns, kv)` entries, the first write
carrying sequence `n + 1`. -/
def flatFrom (n : Nat) : List (Op V) → List (Nat × String × KV V)
  | [] => []
  | op :: rest => op.map (fun p => (n + 1, p.1, p.2)) ++ flatFrom (n + 1) rest

/-- The `(seq, kv)` updates applied to partition `ns`, in order. -/
def writesTo (ops : List (Op V)) (ns : String) : List (Nat × KV V) :=
  (flatFrom 0 ops).filterMap
    (fun w => if w.2.1 = ns then some (w.1, w.2.2) else none)

/-- Right-biased merge of a list of updates over the empty dict. -/
def refFold (l : List (KV V)) : KV V := l.foldl dictUpdate []

/-- The reference state of partition `ns` as of sequence `q`. -/
def refState (ops : List (Op V)) (ns : String) (q : Nat) : KV V :=
  refFold (((writesTo ops ns).filter (fun w => w.1 ≤ q)).map (fun w => w.2))

/-- The value assigned to key `k` in partition `ns` by the most recent
write with sequence `≤ q` that set `k`. -/
def lastSet (ops : List (Op V)) (ns : String) (k : String) (q : Nat) : Option V :=
  ((((writesTo ops ns).filter (fun w => w.1 ≤ q)).reverse).find?
    (fun w => (kvGet w.2 k).isSome)).bind (fun w => kvGet w.2 k)

/-- Well-formed logical writes: each is a non-empty Python dict, so it
touches at least one namespace and mentions each namespace once. -/
def opsWf (ops : List (Op V)) : Prop :=
  ∀ op ∈ ops, op ≠ [] ∧ (op.map Prod.fst).Nodup

instance {V : Type} [DecidableEq V] (ops : List (Op V)) :
    Decidable (opsWf ops) := by
  unfold opsWf
  infer_instance

/-! ### The per-namespace builder

The effect of a run on a single namespace is captured by folding that
namespace's updates through `nsStep`, which mirrors `_write` projected to
one namespace. -/

structure NSAcc (V : Type) : Type where
  map : KV V
  files : List (Nat × List (Nat × KV V))
  last : Nat
  deriving DecidableEq, Repr

def nsStep (size : Nat) (a : NSAcc V) (w : Nat × KV V) : NSAcc V :=
  let seg := w.1 / size
  let data := match alistGet a.files seg with
    | none => dictUpdate a.map w.2
    | some _ => dictUpdate [] w.2
  let lines := (alistGet a.files seg).getD []
  ⟨dictUpdate a.map w.2, alistSet a.files seg (lines ++ [(w.1, data)]), w.1⟩

def nsRun (size : Nat) (ws : List (Nat × KV V)) : NSAcc V :=
  ws.foldl (nsStep size) ⟨[], [], 0⟩

end SK

/-! ### List and lookup lemmas -/

theorem kvGet_refFold {V : Type} (l : List (KV V)) (k : String) :
    kvGet (SK.refFold l) k
      = (l.reverse.find? (fun m => (kvGet m k).isSome)).bind (fun m => kvGet m k) := by
  induction l using List.reverseRecOn with
  | nil => simp [SK.refFold, kvGet]
  | append_singleton l m ih =>
    unfold SK.refFold at ih ⊢
    rw [List.foldl_append, List.foldl_cons, List.foldl_nil, kvGet_dictUpdate,
      List.reverse_append]
    simp only [List.reverse_singleton, List.singleton_append, List.find?_cons]
    cases hm : kvGet m k with
    | some v => simp [Option.orElse, hm]
    | none => simp [Option.orElse, hm, ih]

theorem foldl_dictUpdate_append {V : Type} (l₁ l₂ : List (KV V)) (st : KV V) :
    (l₁ ++ l₂).foldl dictUpdate st = l₂.foldl dictUpdate (l₁.foldl dictUpdate st) := by
  rw [List.foldl_append]

theorem alistGet_mem {K A : Type} [DecidableEq K] {l : List (K × A)} {k : K} {a : A}
    (h : alistGet l k = some a) : (k, a) ∈ l := by
  induction l with
  | nil => simp [alistGet] at h
  | cons p rest ih =>
    rcases p with ⟨k', a'⟩
    by_cases hk : k' = k
    · subst hk
      simp [alistGet] at h
      subst h
      exact List.mem_cons_self _ _
    · simp [alistGet, hk] at h
      exact List.mem_cons_of_mem _ (ih h)

theorem mem_alistGet {K A : Type} [DecidableEq K] {l : List (K × A)} {k : K} {a : A}
    (hnd : (l.map Prod.fst).Nodup) (h : (k, a) ∈ l) : alistGet l k = some a := by
  induction l with
  | nil => simp at h
  | cons p rest ih =>
    rcases p with ⟨k', a'⟩
    rcases List.mem_cons.mp h with heq | hmem
    · cases heq
      simp [alistGet]
    · have hk : k' ≠ k := by
        rintro rfl
        exact (List.nodup_cons.mp hnd).1 (List.mem_map.mpr ⟨(k', a), hmem, rfl⟩)
      simp [alistGet, hk]
      exact ih (List.nodup_cons.mp hnd).2 hmem

theorem alistSet_keys {K A : Type} [DecidableEq K] (l : List (K × A)) (k : K) (a : A) :
    (alistSet l k a).map Prod.fst
      = if k ∈ l.map Prod.fst then l.map Prod.fst else l.map Prod.fst ++ [k] := by
  induction l with
  | nil => simp [alistSet]
  | cons p rest ih =>
    rcases p with ⟨k', a'⟩
    by_cases hk : k' = k
    · subst hk
      simp [alistSet]
    · have : k ∈ (k' :: rest.map Prod.fst) ↔ k ∈ rest.map Prod.fst := by
        simp [Ne.symm hk]
      simp [alistSet, hk, ih]
      by_cases hmem : k ∈ rest.map Prod.fst <;> simp [hmem, this]

theorem alistSet_nodup_keys {K A : Type} [DecidableEq K] {l : List (K × A)}
    (hnd : (l.map Prod.fst).Nodup) (k : K) (a : A) :
    ((alistSet l k a).map Prod.fst).Nodup := by
  rw [alistSet_keys]
  by_cases hmem : k ∈ l.map Prod.fst
  · simpa [hmem]
  · have hdisj : (l.map Prod.fst).Disjoint [k] := by
      intro x hx hxk
      rw [List.mem_singleton] at hxk
      exact hmem (hxk ▸ hx)
    simpa [hmem] using List.Nodup.append hnd (List.nodup_singleton k) hdisj

theorem alistGet_eq_none_of_not_mem {K A : Type} [DecidableEq K]
    {l : List (K × A)} {k : K} (h : k ∉ l.map Prod.fst) : alistGet l k = none := by
  induction l with
  | nil => rfl
  | cons p rest ih =>
    rcases p with ⟨k', a'⟩
    simp only [List.map_cons, List.mem_cons] at h
    push_neg at h
    simp [alistGet, Ne.symm h.1, ih h.2]

/-! ### Effect of `_write` and `multiwrite` on projections -/

namespace SK

variable {V : Type}

/-- The line `_write` appends: a snapshot when the segment file is new, a
delta otherwise. -/
def writeData (sk : SK V) (ns : String) (seqno : Nat) (kv : KV V) : KV V :=
  match alistGet sk.files (ns, seqno / sk.size) with
  | none => dictUpdate (sk.stateMap ns) kv
  | some _ => dictUpdate [] kv

theorem writeOne_size (sk : SK V) (ns : String) (seqno : Nat) (kv : KV V) :
    (writeOne sk ns seqno kv).size = sk.size := rfl

theorem writeOne_seq (sk : SK V) (ns : String) (seqno : Nat) (kv : KV V) :
    (writeOne sk ns seqno kv).seq = sk.seq := rfl

theorem writeOne_state_self (sk : SK V) (ns : String) (seqno : Nat) (kv : KV V) :
    alistGet (writeOne sk ns seqno kv).state ns
      = some (seqno, dictUpdate (sk.stateMap ns) kv) := by
  unfold writeOne
  exact alistGet_alistSet_self _ _ _

theorem writeOne_state_ne (sk : SK V) {ns ns' : String} (seqno : Nat) (kv : KV V)
    (h : ns ≠ ns') :
    alistGet (writeOne sk ns seqno kv).state ns' = alistGet sk.state ns' := by
  unfold writeOne
  exact alistGet_alistSet_ne _ _ _ _ h

theorem stateMap_writeOne_ne (sk : SK V) {ns ns' : String} (seqno : Nat) (kv : KV V)
    (h : ns ≠ ns') :
    (writeOne sk ns seqno kv).stateMap ns' = sk.stateMap ns' := by
  unfold stateMap
  rw [writeOne_state_ne sk seqno kv h]

theorem writeOne_files_self (sk : SK V) (ns : String) (seqno : Nat) (kv : KV V) :
    alistGet (writeOne sk ns seqno kv).files (ns, seqno / sk.size)
      = some ((alistGet sk.files (ns, seqno / sk.size)).getD []
          ++ [(seqno, writeData sk ns seqno kv)]) := by
  unfold writeOne writeData
  exact alistGet_alistSet_self _ _ _

theorem writeOne_files_ne (sk : SK V) (ns : String) (seqno : Nat) (kv : KV V)
    {key : String × Nat} (h : (ns, seqno / sk.size) ≠ key) :
    alistGet (writeOne sk ns seqno kv).files key = alistGet sk.files key := by
  unfold writeOne
  exact alistGet_alistSet_ne _ _ _ _ h

/-- The loop body of `multiwrite`: `_write` every entry of the dict under
the fixed sequence number. -/
def opFold (sk : SK V) (seqno : Nat) (op : Op V) : SK V :=
  op.foldl (fun s p => writeOne s p.1 seqno p.2) sk

theorem multiwrite_eq (sk : SK V) (op : Op V) :
    multiwrite sk op = (opFold { sk with seq := sk.seq + 1 } (sk.seq + 1) op, sk.seq + 1) := rfl

theorem opFold_size (sk : SK V) (seqno : Nat) (op : Op V) :
    (opFold sk seqno op).size = sk.size := by
  induction op generalizing sk with
  | nil => rfl
  | cons p rest ih => simpa [opFold, List.foldl_cons] using ih (writeOne sk p.1 seqno p.2)

theorem opFold_seq (sk : SK V) (seqno : Nat) (op : Op V) :
    (opFold sk seqno op).seq = sk.seq := by
  induction op generalizing sk with
  | nil => rfl
  | cons p rest ih => simpa [opFold, List.foldl_cons] using ih (writeOne sk p.1 seqno p.2)

theorem writeData_congr (sk sk' : SK V) (ns : String) (seqno : Nat) (kv : KV V)
    (hsize : sk'.size = sk.size)
    (hfiles : alistGet sk'.files (ns, seqno / sk.size) = alistGet sk.files (ns, seqno / sk.size))
    (hmap : sk'.stateMap ns = sk.stateMap ns) :
    writeData sk' ns seqno kv = writeData sk ns seqno kv := by
  unfold writeData
  rw [hsize, hfiles, hmap]

theorem opFold_state (sk : SK V) (seqno : Nat) (op : Op V)
    (hnd : (op.map Prod.fst).Nodup) (ns : String) :
    alistGet (opFold sk seqno op).state ns
      = match alistGet op ns with
        | some kv => some (seqno, dictUpdate (sk.stateMap ns) kv)
        | none => alistGet sk.state ns := by
  induction op generalizing sk with
  | nil => rfl
  | cons p rest ih =>
    rcases p with ⟨t, kv₀⟩
    have hnd' : (rest.map Prod.fst).Nodup := (List.nodup_cons.mp hnd).2
    have step : opFold sk seqno ((t, kv₀) :: rest)
        = opFold (writeOne sk t seqno kv₀) seqno rest := by
      simp [opFold, List.foldl_cons]
    by_cases hns : t = ns
    · subst hns
      have hnot : t ∉ rest.map Prod.fst := (List.nodup_cons.mp hnd).1
      rw [step, ih _ hnd', alistGet_eq_none_of_not_mem hnot]
      simp [alistGet, writeOne_state_self]
    · rw [step, ih _ hnd']
      cases hrest : alistGet rest ns with
      | some kv =>
        simp [alistGet, hns, hrest, stateMap_writeOne_ne sk seqno kv₀ hns]
      | none =>
        simp [alistGet, hns, hrest, writeOne_state_ne sk seqno kv₀ hns]

theorem opFold_files (sk : SK V) (seqno : Nat) (op : Op V)
    (hnd : (op.map Prod.fst).Nodup) (ns : String) (G : Nat) :
    alistGet (opFold sk seqno op).files (ns, G)
      = match alistGet op ns with
        | some kv =>
          if G = seqno / sk.size
          then some ((alistGet sk.files (ns, G)).getD []
              ++ [(seqno, writeData sk ns seqno kv)])
          else alistGet sk.files (ns, G)
        | none => alistGet sk.files (ns, G) := by
  induction op generalizing sk with
  | nil => rfl
  | cons p rest ih =>
    rcases p with ⟨t, kv₀⟩
    have hnd' : (rest.map Prod.fst).Nodup := (List.nodup_cons.mp hnd).2
    have step : opFold sk seqno ((t, kv₀) :: rest)
        = opFold (writeOne sk t seqno kv₀) seqno rest := by
      simp [opFold, List.foldl_cons]
    by_cases hns : t = ns
    · subst hns
      have hnot : t ∉ rest.map Prod.fst := (List.nodup_cons.mp hnd).1
      rw [step, ih _ hnd', alistGet_eq_none_of_not_mem hnot]
      by_cases hG : G = seqno / sk.size
      · subst hG
        simp [alistGet, writeOne_files_self]
      · have hkey : (t, seqno / sk.size) ≠ (t, G) := by
          simp [Ne.symm hG]
        simp [alistGet, writeOne_files_ne sk t seqno kv₀ hkey, hG]
    · have hfi : ∀ G' : Nat, alistGet (writeOne sk t seqno kv₀).files (ns, G')
          = alistGet sk.files (ns, G') := fun G' =>
        writeOne_files_ne sk t seqno kv₀ (by simp [hns])
      have hwd : ∀ kv : KV V, (writeOne sk t seqno kv₀).writeData ns seqno kv
          = sk.writeData ns seqno kv := fun kv =>
        writeData_congr sk (writeOne sk t seqno kv₀) ns seqno kv rfl (hfi _)
          (stateMap_writeOne_ne sk seqno kv₀ hns)
      have hga : alistGet ((t, kv₀) :: rest) ns = alistGet rest ns := by
        simp [alistGet, hns]
      rw [step, ih _ hnd', hga]
      cases hrest : alistGet rest ns with
      | some kv => simp only [hrest, writeOne_size, hwd kv, hfi]
      | none => simp only [hrest, hfi]

/-! ### Decomposing a run by namespace -/

theorem flatFrom_snoc (n : Nat) (ops : List (Op V)) (op : Op V) :
    flatFrom n (ops ++ [op])
      = flatFrom n ops ++ op.map (fun p => (n + ops.length + 1, p.1, p.2)) := by
  induction ops generalizing n with
  | nil => simp [flatFrom]
  | cons op₀ rest ih =>
    have harith : n + 1 + rest.length + 1 = n + (rest.length + 1) + 1 := by omega
    have h1 : flatFrom n ((op₀ :: rest) ++ [op])
        = op₀.map (fun p => (n + 1, p.1, p.2)) ++ flatFrom (n + 1) (rest ++ [op]) := rfl
    have h2 : flatFrom n (op₀ :: rest)
        = op₀.map (fun p => (n + 1, p.1, p.2)) ++ flatFrom (n + 1) rest := rfl
    rw [h1, h2, ih (n + 1), harith, List.length_cons, List.append_assoc]


theorem filterMap_toNs_of_nodup (op : Op V) (hnd : (op.map Prod.fst).Nodup)
    (m : Nat) (ns : String) :
    ((op.map (fun p => (m, p.1, p.2))).filterMap
        (fun w => if w.2.1 = ns then some (w.1, w.2.2) else none))
      = match alistGet op ns with
        | some kv => [(m, kv)]
        | none => [] := by
  induction op with
  | nil => rfl
  | cons p rest ih =>
    rcases p with ⟨t, kv⟩
    have hnd' : (rest.map Prod.fst).Nodup := (List.nodup_cons.mp hnd).2
    by_cases ht : t = ns
    · subst ht
      have hnot : t ∉ rest.map Prod.fst := (List.nodup_cons.mp hnd).1
      rw [List.map_cons, List.filterMap_cons]
      simp only [if_pos rfl]
      rw [ih hnd', alistGet_eq_none_of_not_mem hnot]
      simp [alistGet]
    · rw [List.map_cons, List.filterMap_cons]
      simp only [if_neg ht]
      rw [ih hnd']
      simp [alistGet, ht]

theorem writesTo_snoc (ops : List (Op V)) (op : Op V)
    (hnd : (op.map Prod.fst).Nodup) (ns : String) :
    writesTo (ops ++ [op]) ns
      = writesTo ops ns ++ (match alistGet op ns with
          | some kv => [(ops.length + 1, kv)]
          | none => []) := by
  unfold writesTo
  rw [flatFrom_snoc, List.filterMap_append, filterMap_toNs_of_nodup op hnd]
  simp

theorem nsRun_snoc (size : Nat) (ws : List (Nat × KV V)) (w : Nat × KV V) :
    nsRun size (ws ++ [w]) = nsStep size (nsRun size ws) w := by
  unfold nsRun
  rw [List.foldl_append]
  rfl

theorem nsStep_files_self (size : Nat) (a : NSAcc V) (s : Nat) (kv : KV V) :
    alistGet (nsStep size a (s, kv)).files (s / size)
      = some ((alistGet a.files (s / size)).getD []
          ++ [(s, match alistGet a.files (s / size) with
                | none => dictUpdate a.map kv
                | some _ => dictUpdate [] kv)]) := by
  unfold nsStep
  exact alistGet_alistSet_self _ _ _

theorem nsStep_files_ne (size : Nat) (a : NSAcc V) (s : Nat) (kv : KV V) {G : Nat}
    (h : s / size ≠ G) :
    alistGet (nsStep size a (s, kv)).files G = alistGet a.files G := by
  unfold nsStep
  exact alistGet_alistSet_ne _ _ _ _ h

theorem writeOne_state_eq (sk : SK V) (ns : String) (seqno : Nat) (kv : KV V) :
    (writeOne sk ns seqno kv).state
      = alistSet sk.state ns (seqno, dictUpdate (sk.stateMap ns) kv) := rfl

theorem writeOne_files_eq (sk : SK V) (ns : String) (seqno : Nat) (kv : KV V) :
    (writeOne sk ns seqno kv).files
      = alistSet sk.files (ns, seqno / sk.size)
          ((alistGet sk.files (ns, seqno / sk.size)).getD []
            ++ [(seqno, writeData sk ns seqno kv)]) := rfl

theorem opFold_nodup_state (sk : SK V) (seqno : Nat) (op : Op V)
    (h : (sk.state.map Prod.fst).Nodup) :
    ((opFold sk seqno op).state.map Prod.fst).Nodup := by
  induction op generalizing sk with
  | nil => exact h
  | cons p rest ih =>
    have hstep : ((writeOne sk p.1 seqno p.2).state.map Prod.fst).Nodup := by
      rw [writeOne_state_eq]
      exact alistSet_nodup_keys h _ _
    simpa [opFold, List.foldl_cons] using ih (writeOne sk p.1 seqno p.2) hstep

theorem opFold_nodup_files (sk : SK V) (seqno : Nat) (op : Op V)
    (h : (sk.files.map Prod.fst).Nodup) :
    ((opFold sk seqno op).files.map Prod.fst).Nodup := by
  induction op generalizing sk with
  | nil => exact h
  | cons p rest ih =>
    have hstep : ((writeOne sk p.1 seqno p.2).files.map Prod.fst).Nodup := by
      rw [writeOne_files_eq]
      exact alistSet_nodup_keys h _ _
    simpa [opFold, List.foldl_cons] using ih (writeOne sk p.1 seqno p.2) hstep

theorem run_snoc (V : Type) (size : Nat) (ops : List (Op V)) (op : Op V) :
    run V size (ops ++ [op]) = (multiwrite (run V size ops) op).1 := by
  unfold run
  rw [List.foldl_append]
  rfl

/-- The observable effect of one `multiwrite` call: the counter moves up
by exactly one, the returned sequence is the new counter, and each
namespace of the argument dict gets one cache update and one appended
line; everything else is untouched. -/
theorem multiwrite_proj (sk : SK V) (op : Op V) (hnd : (op.map Prod.fst).Nodup) :
    (multiwrite sk op).1.size = sk.size ∧
    (multiwrite sk op).1.seq = sk.seq + 1 ∧
    (multiwrite sk op).2 = sk.seq + 1 ∧
    (∀ ns, alistGet (multiwrite sk op).1.state ns
      = match alistGet op ns with
        | some kv => some (sk.seq + 1, dictUpdate (sk.stateMap ns) kv)
        | none => alistGet sk.state ns) ∧
    (∀ ns G, alistGet (multiwrite sk op).1.files (ns, G)
      = match alistGet op ns with
        | some kv =>
          if G = (sk.seq + 1) / sk.size
          then some ((alistGet sk.files (ns, G)).getD []
              ++ [(sk.seq + 1, writeData sk ns (sk.seq + 1) kv)])
          else alistGet sk.files (ns, G)
        | none => alistGet sk.files (ns, G)) ∧
    ((sk.state.map Prod.fst).Nodup → ((multiwrite sk op).1.state.map Prod.fst).Nodup) ∧
    ((sk.files.map Prod.fst).Nodup → ((multiwrite sk op).1.files.map Prod.fst).Nodup) := by
  rw [multiwrite_eq]
  refine ⟨opFold_size _ _ _, opFold_seq _ _ _, rfl, ?_, ?_, ?_, ?_⟩
  · intro ns
    exact opFold_state _ _ _ hnd ns
  · intro ns G
    exact opFold_files _ _ _ hnd ns G
  · intro h
    exact opFold_nodup_state _ _ _ h
  · intro h
    exact opFold_nodup_files _ _ _ h

/-- Characterization of a run: the counter equals the number of logical
writes, cache and directory keys are unique, and the cache entry and
segment files of every namespace are exactly what folding that
namespace's updates through `nsStep` produces. -/
theorem run_spec (V : Type) (size : Nat) (ops : List (Op V)) (hwf : opsWf ops) :
    (run V size ops).size = size ∧
    (run V size ops).seq = ops.length ∧
    ((run V size ops).state.map Prod.fst).Nodup ∧
    ((run V size ops).files.map Prod.fst).Nodup ∧
    ∀ ns : String,
      (writesTo ops ns = [] → alistGet (run V size ops).state ns = none) ∧
      (writesTo ops ns ≠ [] → alistGet (run V size ops).state ns
        = some ((nsRun size (writesTo ops ns)).last, (nsRun size (writesTo ops ns)).map)) ∧
      ∀ G : Nat, alistGet (run V size ops).files (ns, G)
        = alistGet (nsRun size (writesTo ops ns)).files G := by
  induction ops using List.reverseRecOn with
  | nil =>
    refine ⟨rfl, rfl, by simp [run, init], by simp [run, init], ?_⟩
    intro ns
    refine ⟨fun _ => rfl, fun h => absurd rfl h, fun G => ?_⟩
    simp [run, init, writesTo, flatFrom, nsRun]
  | append_singleton ops op ih =>
    have hwf' : opsWf ops := fun o ho => hwf o (List.mem_append_left _ ho)
    have hop : op ≠ [] ∧ (op.map Prod.fst).Nodup := hwf op (by simp)
    obtain ⟨hsize, hseq, hndstate, hndfiles, hns⟩ := ih hwf'
    obtain ⟨pmsize, pmseq, _, pmstate, pmfiles, pmnds, pmndf⟩ :=
      multiwrite_proj (run V size ops) op hop.2
    have hrun : run V size (ops ++ [op]) = (multiwrite (run V size ops) op).1 :=
      run_snoc V size ops op
    refine ⟨?_, ?_, ?_, ?_, ?_⟩
    · rw [hrun, pmsize, hsize]
    · rw [hrun, pmseq, hseq]
      simp
    · rw [hrun]
      exact pmnds hndstate
    · rw [hrun]
      exact pmndf hndfiles
    · intro ns
      obtain ⟨hstnil, hstcons, hfilesG⟩ := hns ns
      have hmap : (run V size ops).stateMap ns = (nsRun size (writesTo ops ns)).map := by
        by_cases hws : writesTo ops ns = []
        · unfold stateMap
          rw [hstnil hws, hws]
          rfl
        · unfold stateMap
          rw [hstcons hws]
      have hws' := writesTo_snoc ops op hop.2 ns
      cases hget : alistGet op ns with
      | some kv =>
        have hws2 : writesTo (ops ++ [op]) ns
            = writesTo ops ns ++ [(ops.length + 1, kv)] := by
          rw [hws', hget]
        have hnsrun : nsRun size (writesTo (ops ++ [op]) ns)
            = nsStep size (nsRun size (writesTo ops ns)) (ops.length + 1, kv) := by
          rw [hws2, nsRun_snoc]
        refine ⟨?_, ?_, ?_⟩
        · intro h
          rw [hws2] at h
          simp at h
        · intro _
          rw [hrun]
          simp only [pmstate ns, hget, hseq, hmap, hnsrun]
          rfl
        · intro G
          rw [hrun]
          simp only [pmfiles ns G, hget, hseq, hsize, hnsrun]
          by_cases hG : G = (ops.length + 1) / size
          · rw [if_pos hG, hG, nsStep_files_self, hfilesG]
            unfold writeData
            rw [hfilesG, hmap, hsize]
          · rw [if_neg hG, nsStep_files_ne size _ _ _ (fun hc => hG hc.symm)]
            exact hfilesG G
      | none =>
        have hws2 : writesTo (ops ++ [op]) ns = writesTo ops ns := by
          rw [hws', hget]
          simp
        refine ⟨?_, ?_, ?_⟩
        · intro h
          rw [hrun]
          simp only [pmstate ns, hget]
          exact hstnil (hws2 ▸ h)
        · intro h
          rw [hrun]
          simp only [pmstate ns, hget, hws2]
          exact hstcons (hws2 ▸ h)
        · intro G
          rw [hrun]
          simp only [pmfiles ns G, hget, hws2]
          exact hfilesG G

/-! ### Structure of a namespace's segment files -/

/-- The writes of a namespace that land in segment `G`. -/
def wsSeg (size : Nat) (ws : List (Nat × KV V)) (G : Nat) : List (Nat × KV V) :=
  ws.filter (fun w => w.1 / size = G)

theorem writesTo_sorted_bounds (ops : List (Op V)) (hwf : opsWf ops) (ns : String) :
    (writesTo ops ns).Pairwise (fun a b => a.1 < b.1) ∧
    ∀ w ∈ writesTo ops ns, 1 ≤ w.1 ∧ w.1 ≤ ops.length := by
  induction ops using List.reverseRecOn with
  | nil => exact ⟨List.Pairwise.nil, by intro w hw; simp [writesTo, flatFrom] at hw⟩
  | append_singleton ops op ih =>
    have hwf' : opsWf ops := fun o ho => hwf o (List.mem_append_left _ ho)
    have hop : op ≠ [] ∧ (op.map Prod.fst).Nodup := hwf op (by simp)
    obtain ⟨hsort, hbound⟩ := ih hwf'
    have hws' := writesTo_snoc ops op hop.2 ns
    have htail : ∀ w ∈ (match alistGet op ns with
        | some kv => [(ops.length + 1, kv)]
        | none => ([] : List (Nat × KV V))), w.1 = ops.length + 1 := by
      cases alistGet op ns <;> simp
    constructor
    · rw [hws']
      refine List.pairwise_append.mpr ⟨hsort, ?_, ?_⟩
      · cases alistGet op ns <;> simp
      · intro a ha b hb
        rw [htail b hb]
        exact Nat.lt_succ_of_le (hbound a ha).2
    · intro w hw
      rw [hws'] at hw
      rcases List.mem_append.mp hw with h | h
      · refine ⟨(hbound w h).1, ?_⟩
        rw [List.length_append, List.length_singleton]
        exact Nat.le_succ_of_le (hbound w h).2
      · rw [List.length_append, List.length_singleton]
        rw [htail w h]
        omega

theorem foldl_nsStep_map (size : Nat) (ws : List (Nat × KV V)) (a : NSAcc V) :
    (ws.foldl (nsStep size) a).map = (ws.map (fun w => w.2)).foldl dictUpdate a.map := by
  induction ws generalizing a with
  | nil => rfl
  | cons w rest ih =>
    rw [List.foldl_cons, List.map_cons, List.foldl_cons, ih]
    rfl

theorem nsRun_map (size : Nat) (ws : List (Nat × KV V)) :
    (nsRun size ws).map = refFold (ws.map (fun w => w.2)) :=
  foldl_nsStep_map size ws _

/-- Content of each on-disk segment file of one namespace: the first line
is the segment's first write snapshotted over everything written before
it, and the rest are that segment's remaining writes as bare deltas. -/
theorem nsRun_files (size : Nat) (ws : List (Nat × KV V))
    (hsort : ws.Pairwise (fun a b => a.1 < b.1)) (G : Nat) :
    alistGet (nsRun size ws).files G
      = match wsSeg size ws G with
        | [] => none
        | w₁ :: rest =>
          some ((w₁.1, dictUpdate
              (refFold ((ws.filter (fun w => w.1 < w₁.1)).map (fun w => w.2))) w₁.2)
            :: rest.map (fun w => (w.1, dictUpdate [] w.2))) := by
  induction ws using List.reverseRecOn with
  | nil => simp [nsRun, wsSeg]
  | append_singleton ws w ih =>
    obtain ⟨hsortws, -, hcross⟩ := List.pairwise_append.mp hsort
    have hcross' : ∀ x ∈ ws, x.1 < w.1 := fun x hx => hcross x hx w (by simp)
    rcases w with ⟨s, kv⟩
    have hstep : nsRun size (ws ++ [(s, kv)]) = nsStep size (nsRun size ws) (s, kv) :=
      nsRun_snoc size ws (s, kv)
    by_cases hG : s / size = G
    · subst hG
      have hfseg : wsSeg size (ws ++ [(s, kv)]) (s / size)
          = wsSeg size ws (s / size) ++ [(s, kv)] := by
        unfold wsSeg
        rw [List.filter_append]
        simp
      rw [hstep, nsStep_files_self, ih hsortws, hfseg]
      cases hws : wsSeg size ws (s / size) with
      | nil =>
        have hfl : (ws ++ [(s, kv)]).filter (fun w => w.1 < s) = ws := by
          rw [List.filter_append]
          have h1 : ws.filter (fun w => w.1 < s) = ws :=
            List.filter_eq_self.mpr (fun x hx => by simpa using hcross' x hx)
          simp [h1]
        simp [hfl, nsRun_map]
      | cons w₁ rest =>
        have hw₁ : w₁ ∈ ws := by
          have hmem : w₁ ∈ wsSeg size ws (s / size) := by
            rw [hws]
            exact List.mem_cons_self _ _
          unfold wsSeg at hmem
          exact List.mem_of_mem_filter hmem
        have hlt : ¬ (s < w₁.1) := by
          have := hcross' w₁ hw₁
          omega
        have hfl : (ws ++ [(s, kv)]).filter (fun w => w.1 < w₁.1)
            = ws.filter (fun w => w.1 < w₁.1) := by
          rw [List.filter_append]
          simp [hlt]
        simp [hfl]
    · have hfseg : wsSeg size (ws ++ [(s, kv)]) G = wsSeg size ws G := by
        unfold wsSeg
        rw [List.filter_append]
        simp [hG]
      rw [hstep, nsStep_files_ne size _ _ _ hG, ih hsortws, hfseg]
      cases hws : wsSeg size ws G with
      | nil => rfl
      | cons w₁ rest =>
        have hw₁ : w₁ ∈ ws := by
          have hmem : w₁ ∈ wsSeg size ws G := by
            rw [hws]
            exact List.mem_cons_self _ _
          unfold wsSeg at hmem
          exact List.mem_of_mem_filter hmem
        have hlt : ¬ (s < w₁.1) := by
          have := hcross' w₁ hw₁
          omega
        have hfl : (ws ++ [(s, kv)]).filter (fun w => w.1 < w₁.1)
            = ws.filter (fun w => w.1 < w₁.1) := by
          rw [List.filter_append]
          simp [hlt]
        simp [hfl]

/-- Reference state expressed over a namespace's write list. -/
def refStateW (ws : List (Nat × KV V)) (q : Nat) : KV V :=
  refFold ((ws.filter (fun w => w.1 ≤ q)).map (fun w => w.2))

theorem refState_eq_refStateW (ops : List (Op V)) (ns : String) (q : Nat) :
    refState ops ns q = refStateW (writesTo ops ns) q := rfl

theorem foldUpTo_deltas (rest : List (Nat × KV V)) (q : Nat) (st : KV V)
    (hsort : rest.Pairwise (fun a b => a.1 < b.1)) :
    foldUpTo (rest.map (fun w => (w.1, dictUpdate [] w.2))) q st
      = ((rest.filter (fun w => w.1 ≤ q)).map (fun w => w.2)).foldl dictUpdate st := by
  induction rest generalizing st with
  | nil => rfl
  | cons r rest' ih =>
    obtain ⟨hr, hsort'⟩ := List.pairwise_cons.mp hsort
    by_cases hq : r.1 ≤ q
    · rw [List.map_cons]
      show foldUpTo _ q _ = _
      rw [foldUpTo]
      simp only [if_pos hq]
      rw [dictUpdate_nil, ih _ hsort', List.filter_cons, if_pos (by simpa using hq)]
      rfl
    · rw [List.map_cons]
      show foldUpTo _ q _ = _
      rw [foldUpTo]
      simp only [if_neg hq]
      have hnone : rest'.filter (fun w => w.1 ≤ q) = [] := by
        rw [List.filter_eq_nil_iff]
        intro x hx
        have := hr x hx
        simp only [decide_eq_true_eq]
        omega
      rw [List.filter_cons, if_neg (by simpa using hq), hnone]
      rfl

/-- Splitting a list at the head of its filtration. -/
theorem filter_eq_cons_split {α : Type} (p : α → Bool) (l : List α) (x : α)
    (xs : List α) (h : l.filter p = x :: xs) :
    ∃ A B, l = A ++ x :: B ∧ (∀ a ∈ A, ¬ p a) ∧ B.filter p = xs := by
  induction l with
  | nil => simp at h
  | cons h₀ rest ih =>
    by_cases hp : p h₀
    · rw [List.filter_cons, if_pos hp] at h
      obtain ⟨rfl, hrest⟩ : h₀ = x ∧ rest.filter p = xs := List.cons.inj h
      exact ⟨[], rest, by simp, by simp, hrest⟩
    · rw [List.filter_cons, if_neg hp] at h
      obtain ⟨A, B, hl, hA, hB⟩ := ih h
      exact ⟨h₀ :: A, B, by rw [hl]; rfl, by
        intro a ha
        rcases List.mem_cons.mp ha with rfl | ha
        · exact fun hc => hp hc
        · exact hA a ha, hB⟩

/-- Folding the selected segment file up to `q` reproduces the reference
state at `q`, provided the file's first (snapshot) record is at or below
`q` and no write of the namespace lies strictly beyond segment `G` yet at
or below `q`. -/
theorem foldUpTo_file (size : Nat) (ws : List (Nat × KV V))
    (hsort : ws.Pairwise (fun a b => a.1 < b.1)) (G q : Nat)
    (w₁ : Nat × KV V) (rest : List (Nat × KV V))
    (hseg : wsSeg size ws G = w₁ :: rest)
    (hq1 : w₁.1 ≤ q)
    (hbeyond : ∀ w ∈ ws, G < w.1 / size → q < w.1) :
    foldUpTo ((w₁.1, dictUpdate
        (refFold ((ws.filter (fun w => w.1 < w₁.1)).map (fun w => w.2))) w₁.2)
      :: rest.map (fun w => (w.1, dictUpdate [] w.2))) q []
      = refStateW ws q := by
  have hG1 : w₁.1 / size = G := by
    have hmem : w₁ ∈ ws.filter (fun w => w.1 / size = G) := by
      have hm : w₁ ∈ wsSeg size ws G := by
        rw [hseg]
        exact List.mem_cons_self _ _
      simpa [wsSeg] using hm
    simpa using (List.mem_filter.mp hmem).2
  obtain ⟨A, B, hsplit, hA, hB⟩ :=
    filter_eq_cons_split (fun w => w.1 / size = G) ws w₁ rest (by simpa [wsSeg] using hseg)
  subst hsplit
  obtain ⟨hsortA, hsortWB, hcrossA⟩ := List.pairwise_append.mp hsort
  obtain ⟨hWB, hsortB⟩ := List.pairwise_cons.mp hsortWB
  have hAlt : ∀ a ∈ A, a.1 < w₁.1 := fun a ha => hcrossA a ha w₁ (List.mem_cons_self _ _)
  have hAfilter : (A ++ w₁ :: B).filter (fun w => w.1 < w₁.1) = A := by
    rw [List.filter_append, List.filter_cons]
    have h1 : A.filter (fun w => w.1 < w₁.1) = A :=
      List.filter_eq_self.mpr (fun a ha => by simpa using hAlt a ha)
    have h2 : B.filter (fun w => w.1 < w₁.1) = [] := by
      rw [List.filter_eq_nil_iff]
      intro b hb
      have := hWB b hb
      simp only [decide_eq_true_eq]
      omega
    simp [h1, h2]
  have hBq : B.filter (fun w => w.1 ≤ q) = rest.filter (fun w => w.1 ≤ q) := by
    rw [← hB, List.filter_filter]
    refine (List.filter_congr ?_).symm
    intro b hb
    have hbmem : b ∈ A ++ w₁ :: B :=
      List.mem_append_right _ (List.mem_cons_of_mem _ hb)
    have hge : G ≤ b.1 / size := by
      rw [← hG1]
      exact Nat.div_le_div_right (le_of_lt (hWB b hb))
    rcases Nat.lt_or_ge G (b.1 / size) with hgt | hle2
    · have hbq : q < b.1 := hbeyond b hbmem hgt
      have h2 : ¬ (b.1 / size = G) := by omega
      simp only [h2, decide_eq_true_eq]
      simp
      omega
    · have heq : b.1 / size = G := by omega
      simp [heq]
  have hsortrest : rest.Pairwise (fun a b => a.1 < b.1) := by
    rw [← hB]
    exact hsortB.sublist (List.filter_sublist _)
  rw [hAfilter]
  show foldUpTo _ q _ = _
  rw [foldUpTo]
  simp only [if_pos hq1]
  rw [dictUpdate_nil, foldUpTo_deltas rest q _ hsortrest]
  unfold refStateW
  rw [List.filter_append]
  have hcons : (w₁ :: B).filter (fun w => w.1 ≤ q)
      = w₁ :: B.filter (fun w => w.1 ≤ q) := by
    rw [List.filter_cons]
    simp [hq1]
  have h1 : A.filter (fun w => w.1 ≤ q) = A :=
    List.filter_eq_self.mpr (fun a ha => by
      have := hAlt a ha
      simp only [decide_eq_true_eq]
      omega)
  rw [hcons, h1, hBq]
  unfold refFold
  rw [List.map_append, List.map_cons, List.foldl_append, List.foldl_cons]

/-- Looking a key up in the reference state gives the most recent write at
or below `q` that set the key. -/
theorem kvGet_refState_lastSet (ops : List (Op V)) (ns k : String) (q : Nat) :
    kvGet (refState ops ns q) k = lastSet ops ns k q := by
  rw [refState_eq_refStateW]
  unfold refStateW lastSet
  rw [kvGet_refFold, ← List.map_reverse, List.find?_map]
  have hcomp : ((fun m => (kvGet m k).isSome) ∘ fun (w : Nat × KV V) => w.2)
      = (fun w : Nat × KV V => (kvGet w.2 k).isSome) := rfl
  rw [hcomp]
  cases hf : ((writesTo ops ns).filter (fun w => w.1 ≤ q)).reverse.find?
      (fun w => (kvGet w.2 k).isSome) with
  | none => simp [hf]
  | some w => simp [hf]

end SK

/-! ### Specification of the segment-file selection loop -/

theorem sfLoop_spec {L : Type} (seg : Nat) (fs : List (Nat × L)) :
    ∀ (b : Option (Nat × L)), (∀ x, b = some x → x.1 < seg) →
    ∀ f, sfLoop (some seg) fs b = some f →
      (f ∈ fs ∨ b = some f) ∧
      (f.1 = seg ∨
        (f.1 < seg ∧ (∀ g ∈ fs, g.1 ≠ seg) ∧
          (∀ g ∈ fs, g.1 < seg → g.1 ≤ f.1) ∧
          (∀ x, b = some x → x.1 ≤ f.1))) := by
  induction fs with
  | nil =>
    intro b hb f h
    simp only [sfLoop] at h
    refine ⟨Or.inr h, Or.inr ⟨hb f h, by simp, by simp, ?_⟩⟩
    intro x hx
    rw [h] at hx
    injection hx with hx
    rw [hx]
  | cons g rest ih =>
    intro b hb f h
    simp only [sfLoop] at h
    by_cases hgs : g.1 = seg
    · rw [if_pos hgs] at h
      injection h with h
      subst h
      exact ⟨Or.inl (List.mem_cons_self _ _), Or.inl hgs⟩
    · rw [if_neg hgs] at h
      by_cases hgt : g.1 > seg
      · rw [if_pos hgt] at h
        obtain ⟨hmem, hcond⟩ := ih b hb f h
        refine ⟨?_, ?_⟩
        · rcases hmem with hm | hm
          · exact Or.inl (List.mem_cons_of_mem _ hm)
          · exact Or.inr hm
        · rcases hcond with hc | ⟨hlt, hne, hmax, hbmax⟩
          · exact Or.inl hc
          · refine Or.inr ⟨hlt, ?_, ?_, hbmax⟩
            · intro g' hg'
              rcases List.mem_cons.mp hg' with rfl | hg''
              · exact hgs
              · exact hne g' hg''
            · intro g' hg' hlt'
              rcases List.mem_cons.mp hg' with rfl | hg''
              · omega
              · exact hmax g' hg'' hlt'
      · have hglt : g.1 < seg := by omega
        rw [if_neg hgt] at h
        have main : ∀ (b' : Option (Nat × L)), (∀ x, b' = some x → x.1 < seg) →
            sfLoop (some seg) rest b' = some f →
            (f ∈ g :: rest ∨ b' = some f) ∧
            (f.1 = seg ∨
              (f.1 < seg ∧ (∀ g' ∈ g :: rest, g'.1 ≠ seg) ∧
                (∀ g' ∈ g :: rest, g'.1 < seg → g'.1 ≤ f.1) ∧
                (∀ x, b' = some x → x.1 ≤ f.1)) ∨
              (f.1 < seg ∧ (∀ g' ∈ rest, g'.1 ≠ seg) ∧
                (∀ g' ∈ rest, g'.1 < seg → g'.1 ≤ f.1) ∧
                (∀ x, b' = some x → x.1 ≤ f.1))) := by
          intro b' hb' hrec
          obtain ⟨hmem, hcond⟩ := ih b' hb' f hrec
          refine ⟨?_, ?_⟩
          · rcases hmem with hm | hm
            · exact Or.inl (List.mem_cons_of_mem _ hm)
            · exact Or.inr hm
          · rcases hcond with hc | ⟨hlt, hne, hmax, hbmax⟩
            · exact Or.inl hc
            · exact Or.inr (Or.inr ⟨hlt, hne, hmax, hbmax⟩)
        cases b with
        | none =>
          have h' : sfLoop (some seg) rest (some g) = some f := by
            simpa using h
          obtain ⟨hmem, hcond⟩ := main (some g)
            (by
              intro x hx
              injection hx with hx
              rw [← hx]
              exact hglt) h'
          refine ⟨?_, ?_⟩
          · rcases hmem with hm | hm
            · exact Or.inl hm
            · injection hm with hm
              rw [hm]
              exact Or.inl (List.mem_cons_self _ _)
          · rcases hcond with hc | ⟨hlt, hne, hmax, hbmax⟩ | ⟨hlt, hne, hmax, hbmax⟩
            · exact Or.inl hc
            · exact Or.inr ⟨hlt, hne, hmax, fun x hx => by cases hx⟩
            · refine Or.inr ⟨hlt, ?_, ?_, fun x hx => by cases hx⟩
              · intro g' hg'
                rcases List.mem_cons.mp hg' with rfl | hg''
                · exact hgs
                · exact hne g' hg''
              · intro g' hg' hlt'
                rcases List.mem_cons.mp hg' with rfl | hg''
                · exact hbmax g' rfl
                · exact hmax g' hg'' hlt'
        | some b₀ =>
          by_cases hbb : b₀.1 < g.1
          · have h' : sfLoop (some seg) rest (some g) = some f := by
              simpa [hbb] using h
            obtain ⟨hmem, hcond⟩ := main (some g)
              (by
                intro x hx
                injection hx with hx
                rw [← hx]
                exact hglt) h'
            refine ⟨?_, ?_⟩
            · rcases hmem with hm | hm
              · exact Or.inl hm
              · injection hm with hm
                rw [hm]
                exact Or.inl (List.mem_cons_self _ _)
            · rcases hcond with hc | ⟨hlt, hne, hmax, hbmax⟩ | ⟨hlt, hne, hmax, hbmax⟩
              · exact Or.inl hc
              · refine Or.inr ⟨hlt, hne, hmax, ?_⟩
                intro x hx
                injection hx with hx
                have hgf : g.1 ≤ f.1 := hbmax g rfl
                rw [← hx]
                omega
              · refine Or.inr ⟨hlt, ?_, ?_, ?_⟩
                · intro g' hg'
                  rcases List.mem_cons.mp hg' with rfl | hg''
                  · exact hgs
                  · exact hne g' hg''
                · intro g' hg' hlt'
                  rcases List.mem_cons.mp hg' with rfl | hg''
                  · exact hbmax g' rfl
                  · exact hmax g' hg'' hlt'
                · intro x hx
                  injection hx with hx
                  have hgf : g.1 ≤ f.1 := hbmax g rfl
                  rw [← hx]
                  omega
          · have h' : sfLoop (some seg) rest (some b₀) = some f := by
              simpa [hbb] using h
            obtain ⟨hmem, hcond⟩ := main (some b₀) hb h'
            refine ⟨?_, ?_⟩
            · rcases hmem with hm | hm
              · exact Or.inl hm
              · exact Or.inr hm
            · rcases hcond with hc | ⟨hlt, hne, hmax, hbmax⟩ | ⟨hlt, hne, hmax, hbmax⟩
              · exact Or.inl hc
              · exact Or.inr ⟨hlt, hne, hmax, hbmax⟩
              · refine Or.inr ⟨hlt, ?_, ?_, hbmax⟩
                · intro g' hg'
                  rcases List.mem_cons.mp hg' with rfl | hg''
                  · exact hgs
                  · exact hne g' hg''
                · intro g' hg' hlt'
                  rcases List.mem_cons.mp hg' with rfl | hg''
                  · have hble : b₀.1 ≤ f.1 := hbmax b₀ rfl
                    omega
                  · exact hmax g' hg'' hlt'

namespace SK

variable {V : Type}

theorem writesTo_cons_ne_nil (op₀ : Op V) (rest : List (Op V)) (t : String) (kv : KV V)
    (hp : (t, kv) ∈ op₀) : writesTo (op₀ :: rest) t ≠ [] := by
  have hmem : (1, kv) ∈ writesTo (op₀ :: rest) t := by
    unfold writesTo
    rw [List.mem_filterMap]
    refine ⟨(1, t, kv), ?_, by simp⟩
    show (1, t, kv) ∈ flatFrom 0 (op₀ :: rest)
    rw [flatFrom]
    refine List.mem_append_left _ ?_
    exact List.mem_map.mpr ⟨(t, kv), hp, by simp⟩
  exact List.ne_nil_of_mem hmem

theorem isEmpty_false_of_alistGet {K A : Type} [DecidableEq K]
    {l : List (K × A)} {k : K} {a : A} (h : alistGet l k = some a) :
    l.isEmpty = false := by
  cases l with
  | nil => simp [alistGet] at h
  | cons p rest => rfl

theorem segfilesOf_mem (sk : SK V) (ns : String) (G : Nat) (l : List (Nat × KV V)) :
    (G, l) ∈ sk.segfilesOf ns ↔ ((ns, G), l) ∈ sk.files := by
  unfold segfilesOf
  rw [List.mem_filterMap]
  constructor
  · rintro ⟨⟨⟨ns', G'⟩, l'⟩, hx, hfx⟩
    by_cases hns : ns' = ns
    · rw [if_pos (by simpa using hns)] at hfx
      simp only at hfx
      injection hfx with h12
      obtain ⟨h1, h2⟩ := Prod.mk.inj h12
      subst hns h1 h2
      exact hx
    · rw [if_neg (by simpa using hns)] at hfx
      cases hfx
  · intro h
    exact ⟨((ns, G), l), h, by simp⟩

/-- The historical-read correctness of `StateKeeper.get`: whenever the
segment-file selection produces a file whose snapshot is at or below the
requested sequence (or the request is for the current sequence), the
result is the value of the most recent write at or below `q` that set the
key, `NOTFOUND` when there is none. -/
theorem get_correct (size : Nat) (ops : List (Op V)) (ns k : String) (q : Nat)
    (hwf : opsWf ops) (hq1 : 1 ≤ q) (hqn : q ≤ ops.length)
    (hsel : q = ops.length ∨
      ∃ G l₀ ls, (run V size ops).segfileForSeq ns (some q) = some (G, l₀ :: ls)
        ∧ l₀.1 ≤ q) :
    get (run V size ops) ns (some k) (some q)
      = Except.ok (match lastSet ops ns k q with
          | some v => GetRes.val v
          | none => GetRes.notfound) := by
  obtain ⟨hsize, hseq, hndstate, hndfiles, hns⟩ := run_spec V size ops hwf
  obtain ⟨hsort, hbound⟩ := writesTo_sorted_bounds ops hwf ns
  obtain ⟨hstnil, hstcons, hfilesG⟩ := hns ns
  have hmap : (run V size ops).stateMap ns = (nsRun size (writesTo ops ns)).map := by
    by_cases hws : writesTo ops ns = []
    · unfold stateMap
      rw [hstnil hws, hws]
      rfl
    · unfold stateMap
      rw [hstcons hws]
  simp only [get, getS]
  rw [if_neg (by omega)]
  by_cases hqS : q = ops.length
  · -- current-sequence shortcut: `_read_history` delegates to `_read_cur`
    unfold readHistoryS
    rw [if_pos (by rw [hseq, hqS])]
    unfold readCurS
    have hops : ops ≠ [] := by
      intro hc
      rw [hc] at hqn
      simp at hqn
      omega
    obtain ⟨op₀, rest, rfl⟩ : ∃ op₀ rest, ops = op₀ :: rest := by
      cases ops with
      | nil => exact absurd rfl hops
      | cons a b => exact ⟨a, b, rfl⟩
    have hop₀ : op₀ ≠ [] := (hwf op₀ (List.mem_cons_self _ _)).1
    obtain ⟨⟨t, kv⟩, tl, rfl⟩ : ∃ p tl, op₀ = p :: tl := by
      cases op₀ with
      | nil => exact absurd rfl hop₀
      | cons a b => exact ⟨a, b, rfl⟩
    have hwne : writesTo (((t, kv) :: tl) :: rest) t ≠ [] :=
      writesTo_cons_ne_nil _ rest t kv (List.mem_cons_self _ _)
    obtain ⟨hstnil', hstcons', -⟩ := hns t
    have hempty : (run V size (((t, kv) :: tl) :: rest)).state.isEmpty = false :=
      isEmpty_false_of_alistGet (hstcons' hwne)
    rw [if_neg (by
      rw [hempty]
      simp)]
    have hfilter : (writesTo (((t, kv) :: tl) :: rest) ns).filter (fun w => w.1 ≤ q)
        = writesTo (((t, kv) :: tl) :: rest) ns := by
      refine List.filter_eq_self.mpr (fun w hw => ?_)
      have := (hbound w hw).2
      simp only [decide_eq_true_eq]
      omega
    have hkv : kvGet ((run V size (((t, kv) :: tl) :: rest)).stateMap ns) k
        = lastSet (((t, kv) :: tl) :: rest) ns k q := by
      rw [hmap, nsRun_map, ← kvGet_refState_lastSet]
      rw [refState_eq_refStateW]
      unfold refStateW
      rw [hfilter]
    show (((run V size (((t, kv) :: tl) :: rest)),
        Except.ok (projKey ((run V size (((t, kv) :: tl) :: rest)).stateMap ns)
          (some k))) : SK V × Except PyErr (GetRes V)).2 = _
    show Except.ok (projKey ((run V size (((t, kv) :: tl) :: rest)).stateMap ns)
        (some k)) = _
    simp only [projKey]
    rw [hkv]
  · -- genuine historical read through the selected segment file
    have hqlt : q < ops.length := by omega
    obtain ⟨G, l₀, ls, hsel2, hl₀⟩ := hsel.resolve_left hqS
    have hread : readHistoryS (run V size ops) ns (some k) q
        = ((run V size ops),
            Except.ok (projKey (foldUpTo (l₀ :: ls) q []) (some k))) := by
      unfold readHistoryS
      rw [if_neg (by rw [hseq]; omega), hsel2]
    rw [hread]
    show Except.ok (projKey (foldUpTo (l₀ :: ls) q []) (some k)) = _
    simp only [projKey]
    have hsel3 : sfLoop (some (q / (run V size ops).size))
        ((run V size ops).segfilesOf ns) none = some (G, l₀ :: ls) := hsel2
    rw [hsize] at hsel3
    obtain ⟨hmem, hcond⟩ := sfLoop_spec (q / size) ((run V size ops).segfilesOf ns)
      none (by intro x hx; cases hx) (G, l₀ :: ls) hsel3
    have hmem' : (G, l₀ :: ls) ∈ (run V size ops).segfilesOf ns := by
      rcases hmem with h | h
      · exact h
      · cases h
    have halist : alistGet (run V size ops).files (ns, G) = some (l₀ :: ls) :=
      mem_alistGet hndfiles ((segfilesOf_mem _ ns G _).mp hmem')
    have hfile := hfilesG G
    rw [halist, nsRun_files size _ hsort G] at hfile
    cases hws : wsSeg size (writesTo ops ns) G with
    | nil =>
      rw [hws] at hfile
      simp at hfile
    | cons w₁ rest =>
      rw [hws] at hfile
      simp only at hfile
      injection hfile with hfile
      obtain ⟨hl0, hls⟩ := List.cons.inj hfile
      have hq1' : w₁.1 ≤ q := by
        rw [hl0] at hl₀
        simpa using hl₀
      have hbeyond : ∀ w ∈ writesTo ops ns, G < w.1 / size → q < w.1 := by
        intro w hw hGlt
        by_contra hc
        push_neg at hc
        have hsegle : w.1 / size ≤ q / size := Nat.div_le_div_right hc
        have hwseg : w ∈ wsSeg size (writesTo ops ns) (w.1 / size) := by
          unfold wsSeg
          rw [List.mem_filter]
          exact ⟨hw, by simp⟩
        have hfile2 := hfilesG (w.1 / size)
        rw [nsRun_files size _ hsort (w.1 / size)] at hfile2
        have hne2 : wsSeg size (writesTo ops ns) (w.1 / size) ≠ [] :=
          List.ne_nil_of_mem hwseg
        obtain ⟨w₂, rest₂, hws2⟩ : ∃ w₂ rest₂,
            wsSeg size (writesTo ops ns) (w.1 / size) = w₂ :: rest₂ := by
          cases hws2 : wsSeg size (writesTo ops ns) (w.1 / size) with
          | nil => exact absurd hws2 hne2
          | cons a b => exact ⟨a, b, rfl⟩
        rw [hws2] at hfile2
        simp only at hfile2
        have hmem2 : (w.1 / size, _) ∈ (run V size ops).segfilesOf ns :=
          (segfilesOf_mem _ ns (w.1 / size) _).mpr (alistGet_mem hfile2)
        rcases hcond with hceq | ⟨hclt, hcne, hcmax, -⟩
        · omega
        · rcases Nat.lt_or_ge (w.1 / size) (q / size) with hlt2 | hge2
          · have := hcmax _ hmem2 hlt2
            simp at this
            omega
          · have heq2 : w.1 / size = q / size := by omega
            have := hcne _ hmem2
            simp at this
            omega
      rw [hl0, hls]
      have hfold := foldUpTo_file size (writesTo ops ns) hsort G q w₁ rest hws hq1' hbeyond
      rw [hfold]
      have hkv : kvGet (refStateW (writesTo ops ns) q) k = lastSet ops ns k q := by
        rw [← refState_eq_refStateW, kvGet_refState_lastSet]
      rw [hkv]

theorem filter_le_split (ws : List (Nat × KV V)) (w₁ : Nat × KV V)
    (hsort : ws.Pairwise (fun a b => a.1 < b.1)) (hmem : w₁ ∈ ws) :
    ws.filter (fun w => w.1 ≤ w₁.1) = ws.filter (fun w => w.1 < w₁.1) ++ [w₁] := by
  obtain ⟨A, B, rfl⟩ := List.append_of_mem hmem
  obtain ⟨hA, hWB, hcross⟩ := List.pairwise_append.mp hsort
  obtain ⟨hB, -⟩ := List.pairwise_cons.mp hWB
  have hAlt : ∀ a ∈ A, a.1 < w₁.1 := fun a ha => hcross a ha w₁ (List.mem_cons_self _ _)
  rw [List.filter_append, List.filter_append, List.filter_cons, List.filter_cons]
  have h1 : A.filter (fun w => w.1 ≤ w₁.1) = A :=
    List.filter_eq_self.mpr (fun a ha => by
      have := hAlt a ha
      simp only [decide_eq_true_eq]
      omega)
  have h2 : A.filter (fun w => w.1 < w₁.1) = A :=
    List.filter_eq_self.mpr (fun a ha => by simpa using hAlt a ha)
  have h3 : B.filter (fun w => w.1 ≤ w₁.1) = [] := by
    rw [List.filter_eq_nil_iff]
    intro b hb
    have := hB b hb
    simp only [decide_eq_true_eq]
    omega
  have h4 : B.filter (fun w => w.1 < w₁.1) = [] := by
    rw [List.filter_eq_nil_iff]
    intro b hb
    have := hB b hb
    simp only [decide_eq_true_eq]
    omega
  simp [h1, h2, h3, h4]

end SK

/-! ## The claims -/

instance {ε α : Type} [DecidableEq ε] [DecidableEq α] :
    DecidableEq (Except ε α) := fun x y =>
  match x, y with
  | .ok a, .ok b =>
    if h : a = b then .isTrue (h ▸ rfl) else .isFalse fun hc => h (Except.ok.inj hc)
  | .error e, .error f =>
    if h : e = f then .isTrue (h ▸ rfl) else .isFalse fun hc => h (Except.error.inj hc)
  | .ok _, .error _ => .isFalse fun hc => Except.noConfusion hc
  | .error _, .ok _ => .isFalse fun hc => Except.noConfusion hc

/-- Claim C5: for every store reachable by well-formed logical writes from
an empty directory, every segment file of every partition starts with a
snapshot line — a write of the partition whose stored object equals the
partition's full reference state immediately after that write — and every
subsequent line is a delta storing exactly the key/value update of its
write; every line of the file belongs to the file's segment. -/
theorem claim_C5 {V : Type} (size : Nat) (ops : List (SK.Op V))
    (hwf : SK.opsWf ops) (ns : String) (G : Nat) (lines : List (Nat × KV V))
    (hfile : alistGet (SK.run V size ops).files (ns, G) = some lines) :
    ∃ s₁ snap tail, lines = (s₁, snap) :: tail ∧
      (∃ kv₁, (s₁, kv₁) ∈ SK.writesTo ops ns ∧ s₁ / size = G) ∧
      snap = SK.refState ops ns s₁ ∧
      ∀ l ∈ tail, l ∈ SK.writesTo ops ns ∧ l.1 / size = G := by
  obtain ⟨hsize, hseq, hndstate, hndfiles, hns⟩ := SK.run_spec V size ops hwf
  obtain ⟨hsort, hbound⟩ := SK.writesTo_sorted_bounds ops hwf ns
  have hfileG := (hns ns).2.2 G
  rw [SK.nsRun_files size _ hsort G] at hfileG
  rw [hfileG] at hfile
  cases hws : SK.wsSeg size (SK.writesTo ops ns) G with
  | nil =>
    rw [hws] at hfile
    simp at hfile
  | cons w₁ rest =>
    rw [hws] at hfile
    simp only at hfile
    injection hfile with hlines
    have hw₁seg : w₁ ∈ SK.wsSeg size (SK.writesTo ops ns) G := by
      rw [hws]
      exact List.mem_cons_self _ _
    have hw₁mem : w₁ ∈ SK.writesTo ops ns := by
      unfold SK.wsSeg at hw₁seg
      exact List.mem_of_mem_filter hw₁seg
    have hw₁G : w₁.1 / size = G := by
      unfold SK.wsSeg at hw₁seg
      simpa using (List.mem_filter.mp hw₁seg).2
    refine ⟨w₁.1, _, _, hlines.symm, ⟨w₁.2, by simpa using hw₁mem, hw₁G⟩, ?_, ?_⟩
    · rw [SK.refState_eq_refStateW]
      unfold SK.refStateW SK.refFold
      rw [SK.filter_le_split _ w₁ hsort hw₁mem, List.map_append, List.foldl_append]
      rfl
    · intro l hl
      obtain ⟨w, hwmem, hweq⟩ := List.mem_map.mp hl
      have hwseg : w ∈ SK.wsSeg size (SK.writesTo ops ns) G := by
        rw [hws]
        exact List.mem_cons_of_mem _ hwmem
      have hwm : w ∈ SK.writesTo ops ns := by
        unfold SK.wsSeg at hwseg
        exact List.mem_of_mem_filter hwseg
      have hwG : w.1 / size = G := by
        unfold SK.wsSeg at hwseg
        simpa using (List.mem_filter.mp hwseg).2
      rw [← hweq]
      rw [dictUpdate_nil]
      exact ⟨hwm, hwG⟩

/-- Claim C5 witness: the single-write store instantiates the invariant. -/
theorem claim_C5_witness :
    SK.opsWf ([[("a", [("x", 1)])]] : List (SK.Op Nat)) ∧
    alistGet (SK.run Nat 5 [[("a", [("x", 1)])]]).files ("a", 0)
      = some [(1, [("x", 1)])] ∧
    (∃ s₁ snap tail, ([(1, [("x", (1 : Nat))])] : List (Nat × KV Nat)) = (s₁, snap) :: tail ∧
      (∃ kv₁, (s₁, kv₁) ∈ SK.writesTo [[("a", [("x", 1)])]] "a" ∧ s₁ / 5 = 0) ∧
      snap = SK.refState [[("a", [("x", 1)])]] "a" s₁ ∧
      ∀ l ∈ tail, l ∈ SK.writesTo [[("a", [("x", 1)])]] "a" ∧ l.1 / 5 = 0) :=
  ⟨by decide, by decide,
    claim_C5 5 [[("a", [("x", 1)])]] (by decide) "a" 0 [(1, [("x", 1)])] (by decide)⟩

/-- Claim C6: one `multiwrite` call moves the counter up by exactly one
and returns the new counter, whatever the number of touched partitions;
it appends exactly one line to the target segment file of each partition
of its argument dict, each carrying the new sequence number, and touches
no other file. -/
theorem claim_C6 {V : Type} (sk : SK V) (op : SK.Op V)
    (hnd : (op.map Prod.fst).Nodup) :
    (SK.multiwrite sk op).2 = sk.seq + 1 ∧
    (SK.multiwrite sk op).1.seq = sk.seq + 1 ∧
    ∀ ns G,
      ((alistGet op ns = none ∨ G ≠ (sk.seq + 1) / sk.size) →
        alistGet (SK.multiwrite sk op).1.files (ns, G) = alistGet sk.files (ns, G)) ∧
      (∀ kv, alistGet op ns = some kv → G = (sk.seq + 1) / sk.size →
        ∃ d, alistGet (SK.multiwrite sk op).1.files (ns, G)
          = some ((alistGet sk.files (ns, G)).getD [] ++ [(sk.seq + 1, d)])) := by
  obtain ⟨-, pmseq, pmret, -, pmfiles, -, -⟩ := SK.multiwrite_proj sk op hnd
  refine ⟨pmret, pmseq, ?_⟩
  intro ns G
  constructor
  · intro h
    rw [pmfiles ns G]
    cases hget : alistGet op ns with
    | none => rfl
    | some kv =>
      rcases h with h | h
      · rw [hget] at h
        cases h
      · simp only [if_neg h]
  · intro kv hget hG
    rw [pmfiles ns G, hget]
    refine ⟨SK.writeData sk ns (sk.seq + 1) kv, ?_⟩
    show (if G = (sk.seq + 1) / sk.size
        then some ((alistGet sk.files (ns, G)).getD []
            ++ [(sk.seq + 1, SK.writeData sk ns (sk.seq + 1) kv)])
        else alistGet sk.files (ns, G)) = _
    rw [if_pos hG]

/-- Claim C6 witness: a two-partition `multiwrite` on a fresh store. -/
theorem claim_C6_witness :
    ((([("a", [("x", 1)]), ("b", [("y", 2)])] : SK.Op Nat).map Prod.fst).Nodup) ∧
    ((SK.multiwrite (SK.init Nat 5) [("a", [("x", 1)]), ("b", [("y", 2)])]).2
        = (SK.init Nat 5).seq + 1 ∧
      (SK.multiwrite (SK.init Nat 5) [("a", [("x", 1)]), ("b", [("y", 2)])]).1.seq
        = (SK.init Nat 5).seq + 1 ∧
      ∀ ns G,
        ((alistGet [("a", [("x", 1)]), ("b", [("y", 2)])] ns = none
            ∨ G ≠ ((SK.init Nat 5).seq + 1) / (SK.init Nat 5).size) →
          alistGet (SK.multiwrite (SK.init Nat 5)
              [("a", [("x", 1)]), ("b", [("y", 2)])]).1.files (ns, G)
            = alistGet (SK.init Nat 5).files (ns, G)) ∧
        (∀ kv, alistGet [("a", [("x", 1)]), ("b", [("y", 2)])] ns = some kv →
          G = ((SK.init Nat 5).seq + 1) / (SK.init Nat 5).size →
          ∃ d, alistGet (SK.multiwrite (SK.init Nat 5)
              [("a", [("x", 1)]), ("b", [("y", 2)])]).1.files (ns, G)
            = some ((alistGet (SK.init Nat 5).files (ns, G)).getD []
                ++ [((SK.init Nat 5).seq + 1, d)]))) :=
  ⟨by decide, claim_C6 (SK.init Nat 5) [("a", [("x", 1)]), ("b", [("y", 2)])] (by decide)⟩

/-- Claim C10: every read operation of StateKeeper — `get` in all its
argument combinations (including the paths that call `reload()` from
`_read_cur`) and `namespaces` — returns the engine state unchanged: no
field of the state record is modified. -/
theorem readCurS_fst {V : Type} (sk : SK V) (ns : String) (key : Option String) :
    (SK.readCurS sk ns key).1 = sk := by
  unfold SK.readCurS
  split <;> rfl

theorem readHistoryS_fst {V : Type} (sk : SK V) (ns : String) (key : Option String)
    (q : Nat) : (SK.readHistoryS sk ns key q).1 = sk := by
  unfold SK.readHistoryS
  split
  · exact readCurS_fst sk ns key
  · split <;> rfl

theorem claim_C10 {V : Type} (sk : SK V) (ns : String) (key : Option String)
    (seqno : Option Nat) :
    (SK.getS sk ns key seqno).1 = sk ∧ (SK.namespacesS sk).1 = sk := by
  refine ⟨?_, rfl⟩
  unfold SK.getS
  cases seqno with
  | none => exact readCurS_fst sk ns key
  | some q =>
    show (if q < 1 then ((sk, Except.error PyErr.valueError) : SK V × Except PyErr (GetRes V))
        else SK.readHistoryS sk ns key q).1 = sk
    by_cases hq : q < 1
    · rw [if_pos hq]
    · rw [if_neg hq]
      exact readHistoryS_fst sk ns key q

/-- Writes for the C1 counterexample: partition `a` gets `k = 10` at
sequence 1, five writes to `b` advance the counter to 6, then `a` gets
`k = 20` at sequence 7 — opening segment file `a.000000001`, whose
snapshot is at sequence 7. -/
def c1ops : List (SK.Op Nat) :=
  [[("a", [("k", 10)])], [("b", [("j", 0)])], [("b", [("j", 0)])],
   [("b", [("j", 0)])], [("b", [("j", 0)])], [("b", [("j", 0)])],
   [("a", [("k", 20)])]]

/-- Claim C1 counterexample: with segment size 5 and the writes of
`c1ops` (counter 7), `get("a", "k", 6)` returns `NOTFOUND` although the
most recent write to `k` in `a` at or below sequence 6 assigned 10: the
selected file `a.000000001` exists but its snapshot is at sequence 7, so
the fold is empty. -/
theorem claim_C1_counterexample :
    SK.get (SK.run Nat 5 c1ops) "a" (some "k") (some 6) = Except.ok GetRes.notfound ∧
    SK.lastSet c1ops "a" "k" 6 = some 10 ∧
    (SK.run Nat 5 c1ops).seq = 7 := by
  refine ⟨by decide, by decide, by decide⟩

/-- Claim C1 (amended): for every StateKeeper built over an empty
directory by well-formed writes producing counter `S = ops.length`, and
every `s ∈ [1, S]`, `get(P, k, s)` returns the value assigned to `k` in
`P` by the most recent write with sequence `≤ s` (`NOTFOUND` if none) —
PROVIDED `s = S`, or the segment file the code selects for `s` exists and
its first record's sequence is `≤ s`.  (When the selected file's first
record is beyond `s` the code returns `NOTFOUND` regardless of earlier
writes — see the counterexample — and when no file with index
`≤ segment_of(s)` exists the call raises `AttributeError`.) -/
theorem claim_C1_amended {V : Type} (size : Nat) (ops : List (SK.Op V))
    (ns k : String) (q : Nat)
    (hwf : SK.opsWf ops) (hq1 : 1 ≤ q) (hqn : q ≤ ops.length)
    (hsel : q = ops.length ∨
      ∃ G l₀ ls, (SK.run V size ops).segfileForSeq ns (some q) = some (G, l₀ :: ls)
        ∧ l₀.1 ≤ q) :
    SK.get (SK.run V size ops) ns (some k) (some q)
      = Except.ok (match SK.lastSet ops ns k q with
          | some v => GetRes.val v
          | none => GetRes.notfound) :=
  SK.get_correct size ops ns k q hwf hq1 hqn hsel

/-- Claim C1 witness: the amended theorem applied at segment size 5, the
writes of `c1ops`, and sequence 2, where the selected file is
`a.000000000` with first record 1. -/
theorem claim_C1_witness :
    (SK.opsWf c1ops ∧ 1 ≤ 2 ∧ 2 ≤ c1ops.length ∧
      (SK.run Nat 5 c1ops).segfileForSeq "a" (some 2)
        = some (0, (1, [("k", 10)]) :: []) ∧ (1, [("k", (10 : Nat))]).1 ≤ 2) ∧
    SK.get (SK.run Nat 5 c1ops) "a" (some "k") (some 2)
      = Except.ok (match SK.lastSet c1ops "a" "k" 2 with
          | some v => GetRes.val v
          | none => GetRes.notfound) :=
  ⟨⟨by decide, by decide, by decide, by decide, by decide⟩,
    claim_C1_amended 5 c1ops "a" "k" 2 (by decide) (by decide) (by decide)
      (Or.inr ⟨0, (1, [("k", 10)]), [], by decide, by decide⟩)⟩

/-- Claim C2: the code loses everything on reopen.  After `write("a",
{"x": 1})` the original engine has `seq = 1` and `get("a", "x") = 1`, but
a fresh StateKeeper constructed over the same directory has `seq = 0` and
`get("a", "x") = NOTFOUND`, because `reload()` iterates the keys of the
empty in-memory cache instead of the filesystem and repopulates nothing. -/
theorem claim_C2 :
    (SK.run Nat 5 [[("a", [("x", 1)])]]).seq = 1 ∧
    SK.get (SK.run Nat 5 [[("a", [("x", 1)])]]) "a" (some "x") none
      = Except.ok (GetRes.val 1) ∧
    (SK.openDir Nat 5 (SK.run Nat 5 [[("a", [("x", 1)])]]).files).seq = 0 ∧
    SK.get (SK.openDir Nat 5 (SK.run Nat 5 [[("a", [("x", 1)])]]).files)
        "a" (some "x") none
      = Except.ok GetRes.notfound := by
  refine ⟨by decide, by decide, by decide, by decide⟩

/-- The twelve alternating puts of spec scenario 3. -/
def c3puts : List (String × String) :=
  [("a", "v1"), ("b", "v2"), ("a", "v3"), ("b", "v4"), ("a", "v5"), ("b", "v6"),
   ("a", "v7"), ("b", "v8"), ("a", "v9"), ("b", "v10"), ("a", "v11"), ("b", "v12")]

/-- Claim C3: with segment size 5 and 12 alternating puts, `replay(1)`
yields only the records of segments 0 and 1 (sequences 1–9) and never the
final segment holding sequences 10–12, because the outer loop runs while
`curseg < self.seq // segment_size`. -/
theorem claim_C3 :
    (ML.runPuts String 5 c3puts).seq = 12 ∧
    ML.read (ML.runPuts String 5 c3puts) 1 none
      = [(1, "a", "v1"), (2, "b", "v2"), (3, "a", "v3"), (4, "b", "v4"),
         (5, "a", "v5"), (6, "b", "v6"), (7, "a", "v7"), (8, "b", "v8"),
         (9, "a", "v9")] := by
  refine ⟨by decide, by decide⟩

/-- Claim C4: after `multi_write({"a": {"x": 1}, "b": {"y": 2}})` on a
fresh store the counter is 1, yet `replay_all(1)` yields no frame at all
— not the single coalesced frame the claim requires — because the outer
loop `while curseg < self.seq // self.segment_size` never opens segment 0. -/
theorem claim_C4 :
    (SK.run Nat 5 [[("a", [("x", 1)]), ("b", [("y", 2)])]]).seq = 1 ∧
    SK.readAll (SK.run Nat 5 [[("a", [("x", 1)]), ("b", [("y", 2)])]]) 1 = [] := by
  refine ⟨by decide, by decide⟩

/-- Claim C7: after a tag-`A` record at sequence 1 and a tag-`B` record at
sequence 2, `get(msgtypes=["A"], seqno=2)` returns the `A` payload of
sequence 1 (the `seqno == self.seq` shortcut delegates to `_get_cur`),
where the claim requires `NOTFOUND`; and `get(seqno=1)` returns `NOTFOUND`
although the record exists, because `_get_history` enumerates types
through the broken glob. -/
theorem claim_C7 :
    (ELM.runPuts String 5 [("A", "p1"), ("B", "p2")]).seq = 2 ∧
    ELM.get (ELM.runPuts String 5 [("A", "p1"), ("B", "p2")]) (some ["A"]) (some 2)
      = Except.ok (some "p1") ∧
    ELM.get (ELM.runPuts String 5 [("A", "p1"), ("B", "p2")]) none (some 1)
      = Except.ok none := by
  refine ⟨by decide, by decide, by decide⟩

/-- Claim C8: over an empty storage directory, StateKeeper and MultiLog
construct with `seq = 0`, empty partition sets and `{}` / `NOTFOUND`
reads, but `EventLogMulti.__init__` raises `ValueError`: its `reload`
ends with `max(latest[t][0] for t in latest)` over an empty `latest`. -/
theorem claim_C8 :
    (SK.openDir Nat 10000 []).seq = 0 ∧
    SK.get (SK.openDir Nat 10000 []) "a" none none = Except.ok (GetRes.dict []) ∧
    SK.get (SK.openDir Nat 10000 []) "a" (some "x") none = Except.ok GetRes.notfound ∧
    (SK.namespacesS (SK.openDir Nat 10000 [])).2 = [] ∧
    ML.openDir Nat 10000 [] = Except.ok (⟨10000, 0, [], []⟩ : ML Nat) ∧
    ML.get (⟨10000, 0, [], []⟩ : ML Nat) none none = Except.ok none ∧
    ML.tags (⟨10000, 0, [], []⟩ : ML Nat) = [] ∧
    ELM.openDir Nat 10000 [] = Except.error PyErr.valueError := by
  refine ⟨by decide, by decide, by decide, by decide, by decide, by decide,
    by decide, by decide⟩

/-- Claim C9: "no matching record" paths raise instead of returning the
`NOTFOUND` sentinel.  `MultiLog.get(tags=["b"])` on a store holding only
tag-`a` records raises `KeyError` (`self._cur[t]`), and
`StateKeeper.get("b", "x", 1)` on a store whose only partition is `a`
raises `AttributeError` (`self._segfile_for_seq` returns `None` and the
code calls `.open()` on it). -/
theorem claim_C9 :
    ML.get (ML.runPuts Nat 5 [("a", 100)]) (some ["b"]) none
      = Except.error PyErr.keyError ∧
    SK.get (SK.run Nat 5 [[("a", [("x", 1)])], [("a", [("x", 2)])]])
        "b" (some "x") (some 1)
      = Except.error PyErr.attributeError := by
  refine ⟨by decide, by decide⟩

end Marasa
